import Mathlib

/-!
Verification of the LSIF query resolver (`lsifQueryResolver`) and its cursor
codec (`makeCursor` / `readCursor`) from `enterprise` resolvers of the
sourcegraph repository.

Modelling conventions (shallow embedding of the Go source):

* Go strings are byte sequences; we model them as `List Nat` (each element one
  byte).  Machine integers (`int64`, `int32`) are modelled as `Int`.
* `encoding/base64` `StdEncoding` and the `encoding/json` marshalling of
  `map[int64]string` are modelled concretely at the byte level below
  (`b64encode` / `b64decode`, `marshalCursors` / `unmarshalCursors`),
  following the documented behaviour of the Go standard library:
  - `json.Marshal` of a `map[int64]string` emits a compact object whose keys
    are quoted decimal integers and whose values are escaped JSON strings
    (`"`, `\`, control bytes and the HTML-sensitive bytes `<`, `>`, `&`
    escaped, the latter and generic control bytes as lowercase `\u00xx`);
  - `json.Unmarshal` into a `map[int64]string` accepts surrounding
    whitespace, unescapes string values (including `\uXXXX` escapes, with
    invalid surrogate halves replaced by U+FFFD), parses keys with
    `strconv.ParseInt` (optional sign, int64 range check), lets a later
    duplicate key overwrite an earlier one, and — importantly — unmarshals
    the JSON literal `null` into a map by leaving it `nil` with NO error;
  - `base64.StdEncoding` requires padded 4-byte groups and rejects anything
    outside its alphabet (we do not model its tolerance for interior
    newline bytes, which no claim exercises).
* A Go `map[int64]string` value is modelled as an association list
  `List (Int × List Nat)` without duplicate keys; insertion overwrites.
* The per-upload backend (`client.DefaultClient`) is an external collaborator
  and enters as a function parameter.  The effect visible to it — the exact
  sequence of option structs passed to its calls — is recorded as the first
  component of each resolver operation's result, the Go return value being
  the second component.
-/

namespace SgLsif

/-! ## Base64 (`encoding/base64`, `StdEncoding`) -/

/-- Character (byte) of the standard base64 alphabet for a 6-bit value. -/
def b64char (n : Nat) : Nat :=
  if n < 26 then 65 + n
  else if n < 52 then 71 + n
  else if n < 62 then n - 4
  else if n = 62 then 43
  else 47

/-- Inverse of `b64char`: the 6-bit value of an alphabet byte, if any.
The padding byte 61 (`=`) is not in the alphabet. -/
def b64val (c : Nat) : Option Nat :=
  if 65 ≤ c ∧ c ≤ 90 then some (c - 65)
  else if 97 ≤ c ∧ c ≤ 122 then some (c - 71)
  else if 48 ≤ c ∧ c ≤ 57 then some (c + 4)
  else if c = 43 then some 62
  else if c = 47 then some 63
  else none

/-- `base64.StdEncoding.EncodeToString`: bytes to padded base64 bytes. -/
def b64encode : List Nat → List Nat
  | [] => []
  | [b1] => [b64char (b1 / 4), b64char (b1 % 4 * 16), 61, 61]
  | [b1, b2] => [b64char (b1 / 4), b64char (b1 % 4 * 16 + b2 / 16), b64char (b2 % 16 * 4), 61]
  | b1 :: b2 :: b3 :: rest =>
    b64char (b1 / 4) :: b64char (b1 % 4 * 16 + b2 / 16) ::
      b64char (b2 % 16 * 4 + b3 / 64) :: b64char (b3 % 64) :: b64encode rest

/-- The quad-wise part of `base64.StdEncoding.DecodeString` (after newline
bytes have been dropped): padded 4-byte groups back to bytes; `none` on any
input the Go decoder rejects (bad length, stray `=`, non-alphabet byte). -/
def b64decodeQuads : List Nat → Option (List Nat)
  | [] => some []
  | c1 :: c2 :: c3 :: c4 :: rest =>
    match b64val c1, b64val c2 with
    | some s1, some s2 =>
      if c3 = 61 then
        if c4 = 61 ∧ rest = [] then some [s1 * 4 + s2 / 16] else none
      else
        match b64val c3 with
        | some s3 =>
          if c4 = 61 then
            if rest = [] then some [s1 * 4 + s2 / 16, s2 % 16 * 16 + s3 / 4] else none
          else
            match b64val c4 with
            | some s4 =>
              match b64decodeQuads rest with
              | some bs =>
                some ((s1 * 4 + s2 / 16) :: (s2 % 16 * 16 + s3 / 4) :: (s3 % 4 * 64 + s4) :: bs)
              | none => none
            | none => none
        | none => none
    | _, _ => none
  | _ => none

/-- `base64.StdEncoding.DecodeString`: the Go decoder ignores carriage
return and newline bytes wherever they occur, then decodes padded 4-byte
groups. -/
def b64decode (s : List Nat) : Option (List Nat) :=
  b64decodeQuads (s.filter (fun c => !(c == 10 || c == 13)))

theorem b64val_b64char : ∀ n, n < 64 → b64val (b64char n) = some n := by decide

theorem b64char_ne_pad : ∀ n, n < 64 → b64char n ≠ 61 := by decide

/-- Base64 quad round trip on byte lists. -/
theorem b64decodeQuads_b64encode :
    ∀ bs : List Nat, (∀ b ∈ bs, b < 256) → b64decodeQuads (b64encode bs) = some bs := by
  intro bs
  induction bs using b64encode.induct with
  | case1 => intro _; rfl
  | case2 b1 =>
    intro h
    have hb1 : b1 < 256 := h b1 (by simp)
    have h1 := b64val_b64char (b1 / 4) (by omega)
    have h2 := b64val_b64char (b1 % 4 * 16) (by omega)
    simp [b64encode, b64decodeQuads, h1, h2]
    omega
  | case3 b1 b2 =>
    intro h
    have hb1 : b1 < 256 := h b1 (by simp)
    have hb2 : b2 < 256 := h b2 (by simp)
    have h1 := b64val_b64char (b1 / 4) (by omega)
    have h2 := b64val_b64char (b1 % 4 * 16 + b2 / 16) (by omega)
    have h3 := b64val_b64char (b2 % 16 * 4) (by omega)
    have n3 := b64char_ne_pad (b2 % 16 * 4) (by omega)
    simp [b64encode, b64decodeQuads, h1, h2, h3, n3]
    omega
  | case4 b1 b2 b3 rest ih =>
    intro h
    have hb1 : b1 < 256 := h b1 (by simp)
    have hb2 : b2 < 256 := h b2 (by simp)
    have hb3 : b3 < 256 := h b3 (by simp)
    have hrest : ∀ b ∈ rest, b < 256 := fun b hb => h b (by simp [hb])
    have h1 := b64val_b64char (b1 / 4) (by omega)
    have h2 := b64val_b64char (b1 % 4 * 16 + b2 / 16) (by omega)
    have h3 := b64val_b64char (b2 % 16 * 4 + b3 / 64) (by omega)
    have h4 := b64val_b64char (b3 % 64) (by omega)
    have n3 := b64char_ne_pad (b2 % 16 * 4 + b3 / 64) (by omega)
    have n4 := b64char_ne_pad (b3 % 64) (by omega)
    simp [b64encode, b64decodeQuads, h1, h2, h3, h4, n3, n4, ih hrest]
    omega

theorem b64char_ne_newline (n : Nat) : b64char n ≠ 10 ∧ b64char n ≠ 13 := by
  refine ⟨?_, ?_⟩ <;> (rw [b64char]; repeat' split) <;> omega

/-- The encoder never emits a carriage return or newline byte. -/
theorem b64encode_no_newlines :
    ∀ bs : List Nat, ∀ c ∈ b64encode bs, c ≠ 10 ∧ c ≠ 13 := by
  intro bs
  induction bs using b64encode.induct with
  | case1 => intro c hc; simp [b64encode] at hc
  | case2 b1 =>
    intro c hc
    simp only [b64encode, List.mem_cons, List.not_mem_nil, or_false] at hc
    rcases hc with h | h | h | h
    all_goals first
      | (subst h; exact b64char_ne_newline _)
      | (subst h; omega)
  | case3 b1 b2 =>
    intro c hc
    simp only [b64encode, List.mem_cons, List.not_mem_nil, or_false] at hc
    rcases hc with h | h | h | h
    all_goals first
      | (subst h; exact b64char_ne_newline _)
      | (subst h; omega)
  | case4 b1 b2 b3 rest ih =>
    intro c hc
    simp only [b64encode, List.mem_cons] at hc
    rcases hc with h | h | h | h | h
    · subst h; exact b64char_ne_newline _
    · subst h; exact b64char_ne_newline _
    · subst h; exact b64char_ne_newline _
    · subst h; exact b64char_ne_newline _
    · exact ih c h

/-- Base64 round trip on byte lists (the newline filter is the identity on
encoder output). -/
theorem b64decode_b64encode :
    ∀ bs : List Nat, (∀ b ∈ bs, b < 256) → b64decode (b64encode bs) = some bs := by
  intro bs h
  rw [b64decode]
  have hfilter : (b64encode bs).filter (fun c => !(c == 10 || c == 13)) = b64encode bs := by
    rw [List.filter_eq_self]
    intro c hc
    have hne := b64encode_no_newlines bs c hc
    simp [hne.1, hne.2]
  rw [hfilter]
  exact b64decodeQuads_b64encode bs h

/-- A nonempty byte list has a nonempty base64 encoding. -/
theorem b64encode_ne_nil : ∀ bs : List Nat, bs ≠ [] → b64encode bs ≠ [] := by
  intro bs h
  match bs with
  | [b1] => simp [b64encode]
  | [b1, b2] => simp [b64encode]
  | b1 :: b2 :: b3 :: rest => simp [b64encode]

/-! ## Decimal integers (`strconv` formatting / `strconv.ParseInt`) -/

/-- Decimal digits of `n` (most significant first), prepended to `acc`.
Fuelled so that it is structurally recursive; `fuel ≥ n` always suffices. -/
def natToBytesAux : Nat → Nat → List Nat → List Nat
  | 0, _, acc => acc
  | fuel + 1, n, acc =>
    if n = 0 then acc else natToBytesAux fuel (n / 10) ((48 + n % 10) :: acc)

/-- Decimal byte string of a natural number. -/
def natToBytes (n : Nat) : List Nat :=
  if n = 0 then [48] else natToBytesAux n n []

/-- Decimal byte string of an `int64` value (`-` then digits if negative). -/
def intToBytes (i : Int) : List Nat :=
  if i < 0 then 45 :: natToBytes (-i).toNat else natToBytes i.toNat

/-- Accumulating decimal reader: processes digit bytes left to right. -/
def parseDigitsAux : List Nat → Nat → Option Nat
  | [], acc => some acc
  | b :: rest, acc =>
    if 48 ≤ b ∧ b ≤ 57 then parseDigitsAux rest (acc * 10 + (b - 48)) else none

/-- Reads a nonempty all-digit byte string as a natural number. -/
def parseDigits : List Nat → Option Nat
  | [] => none
  | b :: rest => parseDigitsAux (b :: rest) 0

/-- `strconv.ParseInt(s, 10, 64)`: optional sign, digits, int64 range check. -/
def parseInt64 (s : List Nat) : Option Int :=
  match s with
  | [] => none
  | b :: rest =>
    if b = 45 then
      match parseDigits rest with
      | some n => if n ≤ 9223372036854775808 then some (-(n : Int)) else none
      | none => none
    else if b = 43 then
      match parseDigits rest with
      | some n => if n ≤ 9223372036854775807 then some ((n : Int)) else none
      | none => none
    else
      match parseDigits (b :: rest) with
      | some n => if n ≤ 9223372036854775807 then some ((n : Int)) else none
      | none => none

/-- Power of ten matching the number of digits `natToBytesAux` emits. -/
def pow10len : Nat → Nat → Nat
  | 0, _ => 1
  | fuel + 1, n => if n = 0 then 1 else 10 * pow10len fuel (n / 10)

theorem natToBytesAux_append :
    ∀ fuel n acc, ∃ pre, natToBytesAux fuel n acc = pre ++ acc := by
  intro fuel
  induction fuel with
  | zero => intro n acc; exact ⟨[], rfl⟩
  | succ fuel ih =>
    intro n acc
    by_cases h : n = 0
    · exact ⟨[], by simp [natToBytesAux, h]⟩
    · obtain ⟨pre, hpre⟩ := ih (n / 10) ((48 + n % 10) :: acc)
      exact ⟨pre ++ [48 + n % 10], by simp [natToBytesAux, h, hpre]⟩

theorem natToBytesAux_digits :
    ∀ fuel n acc, (∀ b ∈ acc, 48 ≤ b ∧ b ≤ 57) →
      ∀ b ∈ natToBytesAux fuel n acc, 48 ≤ b ∧ b ≤ 57 := by
  intro fuel
  induction fuel with
  | zero => intro n acc hacc; exact hacc
  | succ fuel ih =>
    intro n acc hacc b hb
    by_cases h : n = 0
    · rw [natToBytesAux, if_pos h] at hb; exact hacc b hb
    · rw [natToBytesAux, if_neg h] at hb
      refine ih (n / 10) _ ?_ b hb
      intro c hc
      rcases List.mem_cons.mp hc with h1 | h1
      · omega
      · exact hacc c h1

theorem parseDigitsAux_natToBytesAux :
    ∀ fuel n acc v, n ≤ fuel →
      parseDigitsAux (natToBytesAux fuel n acc) v =
        parseDigitsAux acc (v * pow10len fuel n + n) := by
  intro fuel
  induction fuel with
  | zero =>
    intro n acc v hn
    have : n = 0 := by omega
    simp [natToBytesAux, pow10len, this]
  | succ fuel ih =>
    intro n acc v hn
    by_cases h : n = 0
    · simp [natToBytesAux, pow10len, h]
    · rw [natToBytesAux, if_neg h, pow10len, if_neg h]
      rw [ih (n / 10) _ v (by omega)]
      rw [parseDigitsAux, if_pos (by omega)]
      congr 1
      have hmod : 48 + n % 10 - 48 = n % 10 := by omega
      rw [hmod]
      have hsplit : n / 10 * 10 + n % 10 = n := by omega
      calc (v * pow10len fuel (n / 10) + n / 10) * 10 + n % 10
          = v * (10 * pow10len fuel (n / 10)) + (n / 10 * 10 + n % 10) := by ring
        _ = v * (10 * pow10len fuel (n / 10)) + n := by rw [hsplit]

theorem parseDigits_natToBytes (n : Nat) : parseDigits (natToBytes n) = some n := by
  by_cases h : n = 0
  · simp [natToBytes, h, parseDigits, parseDigitsAux]
  · rw [natToBytes, if_neg h]
    obtain ⟨fuel, hfuel⟩ : ∃ f, n = f + 1 := ⟨n - 1, by omega⟩
    have hstep : natToBytesAux n n [] =
        natToBytesAux fuel (n / 10) ((48 + n % 10) :: []) := by
      conv_lhs => rw [hfuel]
      rw [natToBytesAux, if_neg (by omega : ¬ (fuel + 1 = 0)), ← hfuel]
    obtain ⟨pre, hpre⟩ := natToBytesAux_append fuel (n / 10) ((48 + n % 10) :: [])
    have hne : natToBytesAux n n [] ≠ [] := by
      rw [hstep, hpre]; simp
    have hparse : parseDigits (natToBytesAux n n []) =
        parseDigitsAux (natToBytesAux n n []) 0 := by
      rcases hcase : natToBytesAux n n [] with _ | ⟨b, rest⟩
      · exact absurd hcase hne
      · simp [parseDigits]
    rw [hparse, parseDigitsAux_natToBytesAux n n [] 0 (le_refl n)]
    simp [parseDigitsAux]

theorem natToBytes_digits (n : Nat) : ∀ b ∈ natToBytes n, 48 ≤ b ∧ b ≤ 57 := by
  by_cases h : n = 0
  · simp [natToBytes, h]
  · rw [natToBytes, if_neg h]
    exact natToBytesAux_digits n n [] (by simp)

theorem natToBytes_ne_nil (n : Nat) : natToBytes n ≠ [] := by
  by_cases h : n = 0
  · simp [natToBytes, h]
  · rw [natToBytes, if_neg h]
    obtain ⟨fuel, hfuel⟩ : ∃ f, n = f + 1 := ⟨n - 1, by omega⟩
    have hstep : natToBytesAux n n [] =
        natToBytesAux fuel (n / 10) ((48 + n % 10) :: []) := by
      conv_lhs => rw [hfuel]
      rw [natToBytesAux, if_neg (by omega : ¬ (fuel + 1 = 0)), ← hfuel]
    obtain ⟨pre, hpre⟩ := natToBytesAux_append fuel (n / 10) ((48 + n % 10) :: [])
    rw [hstep, hpre]; simp

/-- `ParseInt` inverts decimal formatting for every in-range `int64`. -/
theorem parseInt64_intToBytes (k : Int)
    (hlo : -9223372036854775808 ≤ k) (hhi : k ≤ 9223372036854775807) :
    parseInt64 (intToBytes k) = some k := by
  by_cases hk : k < 0
  · rw [intToBytes, if_pos hk]
    have hd := parseDigits_natToBytes (-k).toNat
    have hrange : (-k).toNat ≤ 9223372036854775808 := by omega
    simp only [parseInt64, if_pos rfl, hd, hrange, if_true]
    congr 1
    omega
  · rw [intToBytes, if_neg hk]
    rcases hcase : natToBytes k.toNat with _ | ⟨b, rest⟩
    · exact absurd hcase (natToBytes_ne_nil _)
    · have hb : 48 ≤ b ∧ b ≤ 57 := natToBytes_digits k.toNat b (by rw [hcase]; simp)
      rw [parseInt64]
      rw [if_neg (by omega), if_neg (by omega)]
      rw [← hcase, parseDigits_natToBytes]
      have hrange : k.toNat ≤ 9223372036854775807 := by omega
      simp only [hrange, if_true]
      congr 1
      omega

/-! ## JSON strings (`encoding/json` string escaping and unescaping) -/

/-- JSON whitespace skipper (space, tab, newline, carriage return). -/
def skipWs : List Nat → List Nat
  | [] => []
  | b :: rest => if b = 32 ∨ b = 9 ∨ b = 10 ∨ b = 13 then skipWs rest else b :: rest

/-- Lowercase hexadecimal digit byte for a value below 16. -/
def hexDigitChar (n : Nat) : Nat := if n < 10 then 48 + n else 87 + n

/-- Value of a hexadecimal digit byte (either case), if any. -/
def hexVal (c : Nat) : Option Nat :=
  if 48 ≤ c ∧ c ≤ 57 then some (c - 48)
  else if 97 ≤ c ∧ c ≤ 102 then some (c - 87)
  else if 65 ≤ c ∧ c ≤ 70 then some (c - 55)
  else none

/-- UTF-8 byte sequence of a code point (used when a parsed `\uXXXX` escape
is materialised into string bytes). -/
def utf8EncodeChar (c : Nat) : List Nat :=
  if c < 128 then [c]
  else if c < 2048 then [192 + c / 64, 128 + c % 64]
  else if c < 65536 then [224 + c / 4096, 128 + c / 64 % 64, 128 + c % 64]
  else [240 + c / 262144, 128 + c / 4096 % 64, 128 + c / 64 % 64, 128 + c % 64]

/-- One step of `utf8.DecodeRune` on a byte whose value is at least 128:
returns the consumed bytes of one well-formed multi-byte UTF-8 sequence and
the remaining input, or `none` when the input does not start with one
(continuation byte, overlong form, surrogate range, out-of-range lead —
exactly the sequences Go reports as `RuneError` with size 1). -/
def utf8Decode1 : List Nat → Option (List Nat × List Nat)
  | [] => none
  | b1 :: rest =>
    if b1 < 194 then none
    else if b1 < 224 then
      match rest with
      | b2 :: rest2 =>
        if 128 ≤ b2 ∧ b2 < 192 then some ([b1, b2], rest2) else none
      | [] => none
    else if b1 < 240 then
      match rest with
      | b2 :: b3 :: rest3 =>
        if (if b1 = 224 then 160 ≤ b2 ∧ b2 < 192
            else if b1 = 237 then 128 ≤ b2 ∧ b2 < 160
            else 128 ≤ b2 ∧ b2 < 192) ∧ 128 ≤ b3 ∧ b3 < 192
        then some ([b1, b2, b3], rest3) else none
      | _ => none
    else if b1 < 245 then
      match rest with
      | b2 :: b3 :: b4 :: rest4 =>
        if (if b1 = 240 then 144 ≤ b2 ∧ b2 < 192
            else if b1 = 244 then 128 ≤ b2 ∧ b2 < 144
            else 128 ≤ b2 ∧ b2 < 192) ∧ 128 ≤ b3 ∧ b3 < 192 ∧ 128 ≤ b4 ∧ b4 < 192
        then some ([b1, b2, b3, b4], rest4) else none
      | _ => none
    else none

/-- What a successful `utf8Decode1` tells us: the input splits as the
consumed sequence plus the rest, the sequence is 2–4 bytes of values in
[128, 245), and re-running the decoder on the sequence ahead of any other
input consumes exactly the sequence again. -/
theorem utf8Decode1_spec (l c t : List Nat) (h : utf8Decode1 l = some (c, t)) :
    l = c ++ t ∧ 2 ≤ c.length ∧ (∀ b ∈ c, 128 ≤ b ∧ b < 245) ∧
      (∀ t2, utf8Decode1 (c ++ t2) = some (c, t2)) := by
  match l with
  | [] => simp [utf8Decode1] at h
  | b1 :: rest =>
    rw [utf8Decode1.eq_def] at h
    dsimp only at h
    by_cases h194 : b1 < 194
    · rw [if_pos h194] at h; simp at h
    · rw [if_neg h194] at h
      by_cases h224 : b1 < 224
      · rw [if_pos h224] at h
        match rest with
        | [] => simp at h
        | b2 :: rest2 =>
          dsimp only at h
          by_cases hc2 : 128 ≤ b2 ∧ b2 < 192
          · rw [if_pos hc2] at h
            simp only [Option.some.injEq, Prod.mk.injEq] at h
            obtain ⟨hc, ht⟩ := h
            subst hc; subst ht
            refine ⟨rfl, by simp, ?_, ?_⟩
            · intro b hb
              simp only [List.mem_cons, List.not_mem_nil, or_false] at hb
              rcases hb with rfl | rfl <;> omega
            · intro t2
              rw [show ([b1, b2] : List Nat) ++ t2 = b1 :: b2 :: t2 from rfl, utf8Decode1,
                if_neg h194, if_pos h224, if_pos hc2]
          · rw [if_neg hc2] at h; simp at h
      · rw [if_neg h224] at h
        by_cases h240 : b1 < 240
        · rw [if_pos h240] at h
          match rest with
          | [] => simp at h
          | [b2] => simp at h
          | b2 :: b3 :: rest3 =>
            dsimp only at h
            by_cases hc2 : (if b1 = 224 then 160 ≤ b2 ∧ b2 < 192
                else if b1 = 237 then 128 ≤ b2 ∧ b2 < 160
                else 128 ≤ b2 ∧ b2 < 192) ∧ 128 ≤ b3 ∧ b3 < 192
            · rw [if_pos hc2] at h
              simp only [Option.some.injEq, Prod.mk.injEq] at h
              obtain ⟨hc, ht⟩ := h
              subst hc; subst ht
              have hb2 : 128 ≤ b2 ∧ b2 < 192 := by
                obtain ⟨hinner, _⟩ := hc2
                repeat' split at hinner
                all_goals omega
              refine ⟨rfl, by simp, ?_, ?_⟩
              · intro b hb
                simp only [List.mem_cons, List.not_mem_nil, or_false] at hb
                rcases hb with rfl | rfl | rfl <;> omega
              · intro t2
                rw [show ([b1, b2, b3] : List Nat) ++ t2 = b1 :: b2 :: b3 :: t2 from rfl,
                  utf8Decode1, if_neg h194, if_neg h224, if_pos h240]
                dsimp only
                rw [if_pos hc2]
            · rw [if_neg hc2] at h; simp at h
        · rw [if_neg h240] at h
          by_cases h245 : b1 < 245
          · rw [if_pos h245] at h
            match rest with
            | [] => simp at h
            | [b2] => simp at h
            | [b2, b3] => simp at h
            | b2 :: b3 :: b4 :: rest4 =>
              dsimp only at h
              by_cases hc2 : (if b1 = 240 then 144 ≤ b2 ∧ b2 < 192
                  else if b1 = 244 then 128 ≤ b2 ∧ b2 < 144
                  else 128 ≤ b2 ∧ b2 < 192) ∧
                  128 ≤ b3 ∧ b3 < 192 ∧ 128 ≤ b4 ∧ b4 < 192
              · rw [if_pos hc2] at h
                simp only [Option.some.injEq, Prod.mk.injEq] at h
                obtain ⟨hc, ht⟩ := h
                subst hc; subst ht
                have hb2 : 128 ≤ b2 ∧ b2 < 192 := by
                  obtain ⟨hinner, _⟩ := hc2
                  repeat' split at hinner
                  all_goals omega
                refine ⟨rfl, by simp, ?_, ?_⟩
                · intro b hb
                  simp only [List.mem_cons, List.not_mem_nil, or_false] at hb
                  rcases hb with rfl | rfl | rfl | rfl <;> omega
                · intro t2
                  rw [show ([b1, b2, b3, b4] : List Nat) ++ t2 = b1 :: b2 :: b3 :: b4 :: t2
                    from rfl, utf8Decode1, if_neg h194, if_neg h224, if_neg h240,
                    if_pos h245]
                  dsimp only
                  rw [if_pos hc2]
              · rw [if_neg hc2] at h; simp at h
          · rw [if_neg h245] at h; simp at h

/-- Validity of a byte string as UTF-8, the way `json.Marshal` walks it:
ASCII bytes stand alone, other bytes must start a well-formed multi-byte
sequence.  Fuelled (one unit per character); any fuel at least the length
of the string is enough. -/
def utf8Valid : Nat → List Nat → Bool
  | _, [] => true
  | 0, _ => false
  | fuel + 1, b :: rest =>
    if b < 128 then utf8Valid fuel rest
    else
      match utf8Decode1 (b :: rest) with
      | some pr => utf8Valid fuel pr.2
      | none => false

/-- Pure ASCII byte strings are valid UTF-8. -/
theorem utf8Valid_of_ascii :
    ∀ (fuel : Nat) (s : List Nat), s.length ≤ fuel → (∀ b ∈ s, b < 128) →
      utf8Valid fuel s = true := by
  intro fuel
  induction fuel with
  | zero =>
    intro s h _
    match s with
    | [] => rfl
    | b :: tl => simp at h
  | succ f ih =>
    intro s h hb
    match s with
    | [] => rfl
    | b :: tl =>
      rw [utf8Valid, if_pos (hb b (by simp))]
      exact ih tl (by simpa using h) (fun c hc => hb c (by simp [hc]))

/-- Escaping of one ASCII string byte as performed by `json.Marshal`
(HTML-escaping enabled, its default): quote and backslash get two-byte
escapes, newline, carriage return and tab their short escapes, remaining
control bytes and the HTML-sensitive bytes `<` `>` `&` a lowercase `\u00xx`
escape, and every other ASCII byte passes through.  (Go additionally
escapes the multi-byte sequences of U+2028/U+2029; no claim touches those
code points.) -/
def escapeByte (b : Nat) : List Nat :=
  if b = 34 then [92, 34]
  else if b = 92 then [92, 92]
  else if b = 10 then [92, 110]
  else if b = 13 then [92, 114]
  else if b = 9 then [92, 116]
  else if b < 32 ∨ b = 60 ∨ b = 62 ∨ b = 38 then
    [92, 117, 48, 48, hexDigitChar (b / 16), hexDigitChar (b % 16)]
  else [b]

/-- Escapes a string body the way `json.Marshal` walks it: ASCII bytes via
`escapeByte`, well-formed multi-byte UTF-8 sequences passed through raw,
and any byte that starts no well-formed sequence replaced by the six-byte
lowercase escape of U+FFFD (Go coerces invalid UTF-8 to U+FFFD, advancing
one byte).  Fuelled
(one unit per character); any fuel at least the length of the string is
enough. -/
def escapeBytes : Nat → List Nat → List Nat
  | _, [] => []
  | 0, _ => []
  | fuel + 1, b :: rest =>
    if b < 128 then escapeByte b ++ escapeBytes fuel rest
    else
      match utf8Decode1 (b :: rest) with
      | some pr => pr.1 ++ escapeBytes fuel pr.2
      | none => 92 :: 117 :: 102 :: 102 :: 102 :: 100 :: escapeBytes fuel rest

/-- A complete marshalled JSON string: quote, escaped body, quote. -/
def jsonStringBytes (s : List Nat) : List Nat := 34 :: (escapeBytes s.length s ++ [34])

/-- Handles the four hex digits (and a possible surrogate-pair continuation)
after a `\u` escape: returns the UTF-8 bytes to emit and the remaining
input.  Invalid surrogate halves are replaced by U+FFFD (`239 191 189`),
exactly as the Go unquoter does; invalid hex digits fail. -/
def parseUEscape : List Nat → Option (List Nat × List Nat)
  | h1 :: h2 :: h3 :: h4 :: rest3 =>
    match hexVal h1, hexVal h2, hexVal h3, hexVal h4 with
    | some x1, some x2, some x3, some x4 =>
      if 55296 ≤ ((x1 * 16 + x2) * 16 + x3) * 16 + x4 ∧
          ((x1 * 16 + x2) * 16 + x3) * 16 + x4 < 56320 then
        match rest3 with
        | 92 :: 117 :: h5 :: h6 :: h7 :: h8 :: rest4 =>
          match hexVal h5, hexVal h6, hexVal h7, hexVal h8 with
          | some y1, some y2, some y3, some y4 =>
            if 56320 ≤ ((y1 * 16 + y2) * 16 + y3) * 16 + y4 ∧
                ((y1 * 16 + y2) * 16 + y3) * 16 + y4 < 57344 then
              some (utf8EncodeChar (65536 +
                ((((x1 * 16 + x2) * 16 + x3) * 16 + x4) - 55296) * 1024 +
                ((((y1 * 16 + y2) * 16 + y3) * 16 + y4) - 56320)), rest4)
            else some ([239, 191, 189], rest3)
          | _, _, _, _ => some ([239, 191, 189], rest3)
        | _ => some ([239, 191, 189], rest3)
      else if 56320 ≤ ((x1 * 16 + x2) * 16 + x3) * 16 + x4 ∧
          ((x1 * 16 + x2) * 16 + x3) * 16 + x4 < 57344 then
        some ([239, 191, 189], rest3)
      else some (utf8EncodeChar (((x1 * 16 + x2) * 16 + x3) * 16 + x4), rest3)
    | _, _, _, _ => none
  | _ => none

/-- One step of JSON string-body parsing: `recur` stands for the scanner on
the remaining input (the recursive call), `b` is the byte under scrutiny,
`rest` the remaining input.  Mirrors `encoding/json` unquoting: the eight
simple escapes, `\uXXXX` escapes materialised as UTF-8 (via `parseUEscape`),
raw control bytes rejected, ASCII bytes copied, well-formed multi-byte
UTF-8 sequences copied whole, and any other byte replaced by the raw UTF-8
bytes of U+FFFD (`239 191 189`), advancing one byte, exactly as the Go
unquoter's rune loop does. -/
def psbStep (recur : List Nat → Option (List Nat × List Nat)) (b : Nat)
    (rest : List Nat) : Option (List Nat × List Nat) :=
  if b = 34 then some ([], rest)
  else if b = 92 then
    match rest with
    | [] => none
    | c :: rest2 =>
      if c = 34 then (recur rest2).map (fun p => (34 :: p.1, p.2))
      else if c = 92 then (recur rest2).map (fun p => (92 :: p.1, p.2))
      else if c = 47 then (recur rest2).map (fun p => (47 :: p.1, p.2))
      else if c = 98 then (recur rest2).map (fun p => (8 :: p.1, p.2))
      else if c = 102 then (recur rest2).map (fun p => (12 :: p.1, p.2))
      else if c = 110 then (recur rest2).map (fun p => (10 :: p.1, p.2))
      else if c = 114 then (recur rest2).map (fun p => (13 :: p.1, p.2))
      else if c = 116 then (recur rest2).map (fun p => (9 :: p.1, p.2))
      else if c = 117 then
        match parseUEscape rest2 with
        | some pr => (recur pr.2).map (fun p => (pr.1 ++ p.1, p.2))
        | none => none
      else none
  else if b < 32 then none
  else if b < 128 then (recur rest).map (fun p => (b :: p.1, p.2))
  else
    match utf8Decode1 (b :: rest) with
    | some pr => (recur pr.2).map (fun p => (pr.1 ++ p.1, p.2))
    | none => (recur rest).map (fun p => (239 :: 191 :: 189 :: p.1, p.2))

/-- Parses a JSON string body (the decoder is positioned just after the
opening quote), returning the unescaped bytes and the input following the
closing quote.  The explicit fuel keeps the recursion structural; one unit
is spent per produced fragment, so any fuel above the input length is
enough. -/
def parseStringBody : Nat → List Nat → Option (List Nat × List Nat)
  | 0, _ => none
  | _, [] => none
  | fuel + 1, b :: rest => psbStep (fun l => parseStringBody fuel l) b rest

theorem hexVal_hexDigitChar : ∀ n, n < 16 → hexVal (hexDigitChar n) = some n := by decide

theorem psb_close (f : Nat) (r : List Nat) :
    parseStringBody (f + 1) (34 :: r) = some ([], r) := rfl

theorem psb_esc_quote (f : Nat) (r : List Nat) :
    parseStringBody (f + 1) (92 :: 34 :: r) =
      (parseStringBody f r).map (fun p => (34 :: p.1, p.2)) := rfl

theorem psb_esc_back (f : Nat) (r : List Nat) :
    parseStringBody (f + 1) (92 :: 92 :: r) =
      (parseStringBody f r).map (fun p => (92 :: p.1, p.2)) := rfl

theorem psb_esc_nl (f : Nat) (r : List Nat) :
    parseStringBody (f + 1) (92 :: 110 :: r) =
      (parseStringBody f r).map (fun p => (10 :: p.1, p.2)) := rfl

theorem psb_esc_cr (f : Nat) (r : List Nat) :
    parseStringBody (f + 1) (92 :: 114 :: r) =
      (parseStringBody f r).map (fun p => (13 :: p.1, p.2)) := rfl

theorem psb_esc_tab (f : Nat) (r : List Nat) :
    parseStringBody (f + 1) (92 :: 116 :: r) =
      (parseStringBody f r).map (fun p => (9 :: p.1, p.2)) := rfl

theorem psb_esc_u (f : Nat) (r2 : List Nat) :
    parseStringBody (f + 1) (92 :: 117 :: r2) =
      match parseUEscape r2 with
      | some pr => (parseStringBody f pr.2).map (fun p => (pr.1 ++ p.1, p.2))
      | none => none := rfl

theorem psb_plain (f b : Nat) (r : List Nat)
    (h34 : ¬ b = 34) (h92 : ¬ b = 92) (hge : ¬ b < 32) (hlt : b < 128) :
    parseStringBody (f + 1) (b :: r) =
      (parseStringBody f r).map (fun p => (b :: p.1, p.2)) := by
  show psbStep (fun l => parseStringBody f l) b r = _
  rw [psbStep.eq_def, if_neg h34, if_neg h92, if_neg hge, if_pos hlt]

theorem psb_utf8 (f b : Nat) (r : List Nat) (hb : ¬ b < 128) :
    parseStringBody (f + 1) (b :: r) =
      match utf8Decode1 (b :: r) with
      | some pr => (parseStringBody f pr.2).map (fun p => (pr.1 ++ p.1, p.2))
      | none => (parseStringBody f r).map (fun p => (239 :: 191 :: 189 :: p.1, p.2)) := by
  show psbStep (fun l => parseStringBody f l) b r = _
  rw [psbStep.eq_def, if_neg (by omega : ¬ b = 34), if_neg (by omega : ¬ b = 92),
    if_neg (by omega : ¬ b < 32), if_neg hb]

theorem parseUEscape_ascii (d1 d2 v1 v2 : Nat) (r : List Nat)
    (h1 : hexVal d1 = some v1) (h2 : hexVal d2 = some v2) (hv : v1 * 16 + v2 < 128) :
    parseUEscape (48 :: 48 :: d1 :: d2 :: r) = some ([v1 * 16 + v2], r) := by
  have h48 : hexVal 48 = some 0 := rfl
  simp only [parseUEscape, h48, h1, h2]
  rw [if_neg (by omega), if_neg (by omega)]
  simp only [utf8EncodeChar]
  rw [if_pos (by omega)]
  norm_num

/-- Unescaping inverts `json.Marshal` escaping for every VALID UTF-8 byte
string, given escape fuel at least, and parse fuel exceeding, the number of
source bytes.  (Invalid UTF-8 does not round-trip: both sides coerce it to
U+FFFD, exactly as Go does.) -/
theorem parseStringBody_escapeBytes :
    ∀ (fuelV : Nat) (s : List Nat) (fuelE fuelP : Nat) (rest : List Nat),
      utf8Valid fuelV s = true → s.length ≤ fuelE → s.length < fuelP →
      parseStringBody fuelP (escapeBytes fuelE s ++ 34 :: rest) = some (s, rest) := by
  intro fuelV
  induction fuelV with
  | zero =>
    intro s fuelE fuelP rest hv hE hP
    match s with
    | [] =>
      obtain ⟨f, rfl⟩ : ∃ f, fuelP = f + 1 := ⟨fuelP - 1, by omega⟩
      rw [show escapeBytes fuelE [] = [] from by cases fuelE <;> rfl,
        List.nil_append, psb_close]
    | b :: tl =>
      have hfalse : utf8Valid 0 (b :: tl) = false := rfl
      rw [hfalse] at hv
      simp at hv
  | succ fuelV ih =>
    intro s fuelE fuelP rest hv hE hP
    match s with
    | [] =>
      obtain ⟨f, rfl⟩ : ∃ f, fuelP = f + 1 := ⟨fuelP - 1, by omega⟩
      rw [show escapeBytes fuelE [] = [] from by cases fuelE <;> rfl,
        List.nil_append, psb_close]
    | b :: tl =>
      obtain ⟨fE, rfl⟩ : ∃ f, fuelE = f + 1 := ⟨fuelE - 1, by
        simp only [List.length_cons] at hE; omega⟩
      obtain ⟨fP, rfl⟩ : ∃ f, fuelP = f + 1 := ⟨fuelP - 1, by omega⟩
      have hE2 : tl.length ≤ fE := by simp only [List.length_cons] at hE; omega
      have hP2 : tl.length < fP := by simp only [List.length_cons] at hP; omega
      by_cases hb : b < 128
      · have hv2 : utf8Valid fuelV tl = true := by
          rw [utf8Valid, if_pos hb] at hv
          exact hv
        have ihf := ih tl fE fP rest hv2 hE2 hP2
        rw [escapeBytes, if_pos hb]
        by_cases h34 : b = 34
        · subst h34
          rw [show escapeByte 34 = [92, 34] from rfl]
          simp only [List.cons_append, List.nil_append]
          rw [psb_esc_quote, ihf]
          rfl
        · by_cases h92 : b = 92
          · subst h92
            rw [show escapeByte 92 = [92, 92] from rfl]
            simp only [List.cons_append, List.nil_append]
            rw [psb_esc_back, ihf]
            rfl
          · by_cases h10 : b = 10
            · subst h10
              rw [show escapeByte 10 = [92, 110] from rfl]
              simp only [List.cons_append, List.nil_append]
              rw [psb_esc_nl, ihf]
              rfl
            · by_cases h13 : b = 13
              · subst h13
                rw [show escapeByte 13 = [92, 114] from rfl]
                simp only [List.cons_append, List.nil_append]
                rw [psb_esc_cr, ihf]
                rfl
              · by_cases h9 : b = 9
                · subst h9
                  rw [show escapeByte 9 = [92, 116] from rfl]
                  simp only [List.cons_append, List.nil_append]
                  rw [psb_esc_tab, ihf]
                  rfl
                · by_cases hu : b < 32 ∨ b = 60 ∨ b = 62 ∨ b = 38
                  · rw [escapeByte, if_neg h34, if_neg h92, if_neg h10, if_neg h13,
                      if_neg h9, if_pos hu]
                    have hx1 : hexVal (hexDigitChar (b / 16)) = some (b / 16) :=
                      hexVal_hexDigitChar _ (by omega)
                    have hx2 : hexVal (hexDigitChar (b % 16)) = some (b % 16) :=
                      hexVal_hexDigitChar _ (by omega)
                    simp only [List.cons_append, List.nil_append]
                    rw [psb_esc_u,
                      parseUEscape_ascii _ _ _ _ _ hx1 hx2 (by omega)]
                    have hcp : b / 16 * 16 + b % 16 = b := by omega
                    dsimp only
                    rw [hcp, ihf]
                    rfl
                  · have hge : ¬ b < 32 := by omega
                    rw [escapeByte, if_neg h34, if_neg h92, if_neg h10, if_neg h13,
                      if_neg h9, if_neg hu]
                    simp only [List.cons_append, List.nil_append]
                    rw [psb_plain fP b _ h34 h92 hge hb, ihf]
                    rfl
      · rw [utf8Valid, if_neg hb] at hv
        rcases hdec : utf8Decode1 (b :: tl) with _ | ⟨c, rest2⟩
        · rw [hdec] at hv
          simp at hv
        · rw [hdec] at hv
          dsimp only at hv
          obtain ⟨hsplit, hclen, hcbytes, hreplay⟩ := utf8Decode1_spec _ _ _ hdec
          rw [escapeBytes, if_neg hb, hdec]
          dsimp only
          have hlen : tl.length + 1 = c.length + rest2.length := by
            have := congrArg List.length hsplit
            simpa using this
          have ihf := ih rest2 fE fP rest hv (by omega) (by omega)
          match c, hclen with
          | c1 :: ctl, _ =>
            have hc1 : 128 ≤ c1 ∧ c1 < 245 := hcbytes c1 (by simp)
            have hshape : ((c1 :: ctl) ++ escapeBytes fE rest2) ++ 34 :: rest =
                c1 :: (ctl ++ (escapeBytes fE rest2 ++ 34 :: rest)) := by
              simp
            rw [hshape, psb_utf8 fP c1 _ (by omega)]
            have hreplay2 : utf8Decode1 (c1 :: (ctl ++ (escapeBytes fE rest2 ++
                34 :: rest))) = some (c1 :: ctl, escapeBytes fE rest2 ++ 34 :: rest) := by
              have := hreplay (escapeBytes fE rest2 ++ 34 :: rest)
              simpa using this
            rw [hreplay2]
            dsimp only
            rw [ihf]
            dsimp only [Option.map]
            rw [hsplit]

/-! ## JSON objects for `map[int64]string`

A Go `map[int64]string` value is modelled as an association list without
duplicate keys; `insertPair` is map assignment (overwriting), `lookupPair`
is map indexing.  `json.Marshal` sorts object keys by their string form;
since every claim compares decoded maps only as sets of (key, value) pairs,
the printer below emits the entries in association-list order, which is one
admissible key enumeration. -/

/-- Map assignment `m[k] = v` on the association-list model. -/
def insertPair : List (Int × List Nat) → Int → List Nat → List (Int × List Nat)
  | [], k, v => [(k, v)]
  | (k2, v2) :: rest, k, v =>
    if k2 = k then (k, v) :: rest else (k2, v2) :: insertPair rest k v

/-- Map lookup `m[k]` on the association-list model. -/
def lookupPair : List (Int × List Nat) → Int → Option (List Nat)
  | [], _ => none
  | (k2, v2) :: rest, k => if k2 = k then some v2 else lookupPair rest k

/-- One marshalled `"key":"value"` member. -/
def jsonEntryBytes (k : Int) (v : List Nat) : List Nat :=
  jsonStringBytes (intToBytes k) ++ 58 :: jsonStringBytes v

/-- Comma-separated marshalled members. -/
def jsonEntriesBytes : List (Int × List Nat) → List Nat
  | [] => []
  | (k, v) :: rest =>
    match rest with
    | [] => jsonEntryBytes k v
    | _ :: _ => jsonEntryBytes k v ++ 44 :: jsonEntriesBytes rest

/-- `json.Marshal` of a `map[int64]string`: a compact JSON object. -/
def marshalCursors (m : List (Int × List Nat)) : List Nat :=
  123 :: (jsonEntriesBytes m ++ [125])

/-- One step of the object-member parser: `recur` is the parser for the
members after a comma, `l` the input positioned at a key's opening quote,
`acc` the map built so far (later duplicate keys overwrite, as in Go).
Inner strings get fuel from their own input length, which always
suffices (`parseStringBody` consumes at least one byte per unit). -/
def pmStep
    (recur : List Nat → List (Int × List Nat) → Option (List (Int × List Nat) × List Nat))
    (l : List Nat) (acc : List (Int × List Nat)) :
    Option (List (Int × List Nat) × List Nat) :=
  match l with
  | 34 :: lk =>
    match parseStringBody (lk.length + 1) lk with
    | some (ks, l2) =>
      match parseInt64 ks with
      | some k =>
        match skipWs l2 with
        | 58 :: l3 =>
          match skipWs l3 with
          | 34 :: lv =>
            match parseStringBody (lv.length + 1) lv with
            | some (vs, l4) =>
              match skipWs l4 with
              | 44 :: l5 => recur (skipWs l5) (insertPair acc k vs)
              | 125 :: l5 => some (insertPair acc k vs, l5)
              | _ => none
            | none => none
          | 110 :: 117 :: 108 :: 108 :: l4 =>
            match skipWs l4 with
            | 44 :: l5 => recur (skipWs l5) (insertPair acc k [])
            | 125 :: l5 => some (insertPair acc k [], l5)
            | _ => none
          | _ => none
        | _ => none
      | none => none
    | none => none
  | _ => none

/-- The object-member parser; fuel spends one unit per member, so any fuel
above the input length is enough. -/
def parseMembers : Nat → List Nat → List (Int × List Nat) →
    Option (List (Int × List Nat) × List Nat)
  | 0, _, _ => none
  | fuel + 1, l, acc => pmStep (fun l2 a2 => parseMembers fuel l2 a2) l acc

/-- `json.Unmarshal(bs, &cursors)` for `var cursors map[int64]string`:
accepts surrounding whitespace; the JSON literal `null` leaves the map `nil`
(an empty map) with NO error; an object is parsed member-wise; anything
else (and any trailing input) is an error, reported as `none`. -/
def unmarshalCursors (bs : List Nat) : Option (List (Int × List Nat)) :=
  match skipWs bs with
  | 110 :: 117 :: 108 :: 108 :: rest =>
    match skipWs rest with
    | [] => some []
    | _ => none
  | 123 :: rest =>
    match skipWs rest with
    | 125 :: rest2 =>
      match skipWs rest2 with
      | [] => some []
      | _ => none
    | l1 =>
      match parseMembers (l1.length + 1) l1 [] with
      | some (m, rest2) =>
        match skipWs rest2 with
        | [] => some m
        | _ => none
      | none => none
  | _ => none

/-! ## The cursor codec (`readCursor` / `makeCursor`) -/

/-- The two error sources of `readCursor`: `base64.StdEncoding.DecodeString`
and `json.Unmarshal`. -/
inductive CursorError where
  | base64Error : CursorError
  | jsonError : CursorError
deriving DecidableEq

/-- `readCursor` decodes a cursor into a map from upload ids to URLs that
serves the next page of results.  A `nil` (absent) cursor yields a `nil`
map (modelled as the empty association list) with no error; a present
cursor is base64-decoded and then JSON-unmarshalled, each failure being
returned to the caller. -/
def readCursor (after : Option (List Nat)) : Except CursorError (List (Int × List Nat)) :=
  match after with
  | none => .ok []
  | some s =>
    match b64decode s with
    | none => .error .base64Error
    | some bytes =>
      match unmarshalCursors bytes with
      | none => .error .jsonError
      | some m => .ok m

/-- `makeCursor` encodes a map from upload ids to URLs into a single opaque
string: the empty map becomes the empty string, anything else the base64 of
its JSON marshalling.  (`json.Marshal` cannot fail on a `map[int64]string`,
so the error result is always `ok`; the `Except` mirrors the Go
signature.) -/
def makeCursor (cursors : List (Int × List Nat)) : Except CursorError (List Nat) :=
  if cursors = [] then .ok []
  else .ok (b64encode (marshalCursors cursors))

/-! ## Round trip of the JSON object codec -/

theorem skipWs_34 (r : List Nat) : skipWs (34 :: r) = 34 :: r := rfl

theorem skipWs_44 (r : List Nat) : skipWs (44 :: r) = 44 :: r := rfl

theorem skipWs_58 (r : List Nat) : skipWs (58 :: r) = 58 :: r := rfl

theorem skipWs_123 (r : List Nat) : skipWs (123 :: r) = 123 :: r := rfl

theorem skipWs_125 (r : List Nat) : skipWs (125 :: r) = 125 :: r := rfl

theorem escapeBytes_length :
    ∀ (fuel : Nat) (s : List Nat), s.length ≤ fuel →
      s.length ≤ (escapeBytes fuel s).length := by
  intro fuel
  induction fuel with
  | zero =>
    intro s h
    match s with
    | [] => simp
    | b :: tl => simp at h
  | succ f ih =>
    intro s h
    match s with
    | [] => simp
    | b :: tl =>
      have h2 : tl.length ≤ f := by simp only [List.length_cons] at h; omega
      rw [escapeBytes]
      by_cases hb : b < 128
      · rw [if_pos hb]
        have h1 : 1 ≤ (escapeByte b).length := by
          rw [escapeByte]
          repeat' split
          all_goals simp
        have h3 := ih tl h2
        simp only [List.length_append, List.length_cons]
        omega
      · rw [if_neg hb]
        rcases hdec : utf8Decode1 (b :: tl) with _ | ⟨c, rest2⟩
        · dsimp only
          have h3 := ih tl h2
          simp only [List.length_cons]
          omega
        · dsimp only
          obtain ⟨hsplit, hclen, _, _⟩ := utf8Decode1_spec _ _ _ hdec
          have hlen : tl.length + 1 = c.length + rest2.length := by
            have := congrArg List.length hsplit
            simpa using this
          have h3 := ih rest2 (by omega)
          simp only [List.length_append, List.length_cons]
          omega

theorem parseMembers_succ (fuel : Nat) (l : List Nat) (acc : List (Int × List Nat)) :
    parseMembers (fuel + 1) l acc = pmStep (fun l2 a2 => parseMembers fuel l2 a2) l acc := rfl

/-- The digits (with optional sign) of a formatted `int64` are ASCII. -/
theorem intToBytes_ascii (k : Int) : ∀ x ∈ intToBytes k, x < 128 := by
  intro x hx
  rw [intToBytes] at hx
  split at hx
  · rcases List.mem_cons.mp hx with h | h
    · omega
    · have := natToBytes_digits (-k).toNat x h
      omega
  · have := natToBytes_digits k.toNat x hx
    omega

/-- Parsing one printed member followed by a delimiter (`,` or `}`). -/
theorem pmStep_entry
    (recur : List Nat → List (Int × List Nat) → Option (List (Int × List Nat) × List Nat))
    (k : Int) (v : List Nat) (d : List Nat) (acc : List (Int × List Nat))
    (hk1 : -9223372036854775808 ≤ k) (hk2 : k ≤ 9223372036854775807)
    (hv : utf8Valid v.length v = true) :
    pmStep recur (jsonEntryBytes k v ++ d) acc =
      match skipWs d with
      | 44 :: l5 => recur (skipWs l5) (insertPair acc k v)
      | 125 :: l5 => some (insertPair acc k v, l5)
      | _ => none := by
  have hshape : jsonEntryBytes k v ++ d =
      34 :: (escapeBytes (intToBytes k).length (intToBytes k) ++
        34 :: (58 :: (34 :: (escapeBytes v.length v ++ 34 :: d)))) := by
    simp [jsonEntryBytes, jsonStringBytes]
  rw [hshape, pmStep]
  rw [parseStringBody_escapeBytes (intToBytes k).length (intToBytes k)
    (intToBytes k).length _ _
    (utf8Valid_of_ascii _ _ (le_refl _) (intToBytes_ascii k)) (le_refl _) (by
      have := escapeBytes_length (intToBytes k).length (intToBytes k) (le_refl _)
      simp only [List.length_append, List.length_cons]
      omega)]
  dsimp only
  rw [parseInt64_intToBytes k hk1 hk2]
  dsimp only
  rw [skipWs_58]
  dsimp only
  rw [skipWs_34]
  dsimp only
  rw [parseStringBody_escapeBytes v.length v v.length _ _ hv (le_refl _) (by
    have := escapeBytes_length v.length v (le_refl _)
    simp only [List.length_append, List.length_cons]
    omega)]

theorem jsonEntryBytes_shape (k : Int) (v : List Nat) :
    ∃ t, jsonEntryBytes k v = 34 :: t := by
  refine ⟨escapeBytes (intToBytes k).length (intToBytes k) ++ [34] ++
    58 :: jsonStringBytes v, ?_⟩
  simp [jsonEntryBytes, jsonStringBytes]

theorem jsonEntriesBytes_shape (m : List (Int × List Nat)) (hm : m ≠ []) :
    ∃ t, jsonEntriesBytes m = 34 :: t := by
  match m with
  | (k, v) :: rest =>
    obtain ⟨t, ht⟩ := jsonEntryBytes_shape k v
    match rest with
    | [] => exact ⟨t, by rw [jsonEntriesBytes, ht]⟩
    | e :: rest2 =>
      exact ⟨t ++ 44 :: jsonEntriesBytes (e :: rest2), by
        rw [jsonEntriesBytes, ht]; rfl⟩

theorem jsonEntriesBytes_length (m : List (Int × List Nat)) :
    m.length ≤ (jsonEntriesBytes m).length := by
  induction m with
  | nil => simp [jsonEntriesBytes]
  | cons p rest ih =>
    obtain ⟨k, v⟩ := p
    obtain ⟨t, ht⟩ := jsonEntryBytes_shape k v
    match rest with
    | [] => simp [jsonEntriesBytes, ht]
    | e :: rest2 =>
      rw [jsonEntriesBytes, ht]
      simp only [List.length_append, List.length_cons]
      simp only [List.length_cons] at ih ⊢
      omega

/-- Parsing the printed members of a nonempty map plus the closing brace
accumulates exactly the printed entries (by repeated map assignment). -/
theorem parseMembers_entries :
    ∀ (m : List (Int × List Nat)) (fuel : Nat) (acc : List (Int × List Nat)),
      m ≠ [] → m.length ≤ fuel →
      (∀ p ∈ m, -9223372036854775808 ≤ p.1 ∧ p.1 ≤ 9223372036854775807) →
      (∀ p ∈ m, utf8Valid p.2.length p.2 = true) →
      parseMembers fuel (jsonEntriesBytes m ++ [125]) acc =
        some (List.foldl (fun a p => insertPair a p.1 p.2) acc m, []) := by
  intro m
  induction m with
  | nil => intro fuel acc hne; exact absurd rfl hne
  | cons p rest ih =>
    intro fuel acc _ hfuel hrange hval
    obtain ⟨k, v⟩ := p
    obtain ⟨f, rfl⟩ : ∃ f, fuel = f + 1 := ⟨fuel - 1, by
      simp only [List.length_cons] at hfuel; omega⟩
    have hk := hrange (k, v) (by simp)
    have hkv := hval (k, v) (by simp)
    match rest with
    | [] =>
      rw [jsonEntriesBytes, parseMembers_succ,
        pmStep_entry _ k v [125] acc hk.1 hk.2 hkv, skipWs_125]
      rfl
    | e :: rest2 =>
      rw [jsonEntriesBytes]
      have hassoc : (jsonEntryBytes k v ++ 44 :: jsonEntriesBytes (e :: rest2)) ++ [125] =
          jsonEntryBytes k v ++ (44 :: (jsonEntriesBytes (e :: rest2) ++ [125])) := by
        simp
      rw [hassoc, parseMembers_succ,
        pmStep_entry _ k v (44 :: (jsonEntriesBytes (e :: rest2) ++ [125])) acc
          hk.1 hk.2 hkv,
        skipWs_44]
      obtain ⟨t, ht⟩ := jsonEntriesBytes_shape (e :: rest2) (by simp)
      have hskip : skipWs (jsonEntriesBytes (e :: rest2) ++ [125]) =
          jsonEntriesBytes (e :: rest2) ++ [125] := by
        rw [ht]; rfl
      dsimp only
      rw [hskip]
      rw [ih f (insertPair acc k v) (by simp) (by
        have := jsonEntriesBytes_length (e :: rest2)
        simp only [List.length_cons] at hfuel ⊢
        omega) (fun q hq => hrange q (by simp [hq]))
        (fun q hq => hval q (by simp [hq]))]
      rfl

theorem insertPair_not_mem (acc : List (Int × List Nat)) (k : Int) (v : List Nat)
    (h : ∀ q ∈ acc, q.1 ≠ k) : insertPair acc k v = acc ++ [(k, v)] := by
  induction acc with
  | nil => rfl
  | cons q rest ih =>
    obtain ⟨k2, v2⟩ := q
    rw [insertPair, if_neg (h (k2, v2) (by simp))]
    rw [ih (fun q hq => h q (by simp [hq]))]
    rfl

theorem foldl_insertPair (m : List (Int × List Nat)) :
    ∀ acc, (m.map Prod.fst).Nodup → (∀ p ∈ m, ∀ q ∈ acc, q.1 ≠ p.1) →
      List.foldl (fun a p => insertPair a p.1 p.2) acc m = acc ++ m := by
  induction m with
  | nil => intro acc _ _; simp
  | cons p rest ih =>
    intro acc hnd hdis
    obtain ⟨k, v⟩ := p
    rw [List.foldl_cons]
    rw [insertPair_not_mem acc k v (hdis (k, v) (by simp))]
    rw [ih (acc ++ [(k, v)]) (by simp only [List.map_cons, List.nodup_cons] at hnd; exact hnd.2)
      ?_]
    · simp
    · intro q hq r hr
      rcases List.mem_append.mp hr with h1 | h1
      · exact hdis q (by simp [hq]) r h1
      · have hrk : r = (k, v) := by simpa using h1
        subst hrk
        simp only [List.map_cons, List.nodup_cons] at hnd
        intro heq
        refine hnd.1 ?_
        have hmem : q.1 ∈ List.map Prod.fst rest := List.mem_map.mpr ⟨q, hq, rfl⟩
        simpa [← heq] using hmem

/-! ## Byte bounds of the marshalled form, and the codec round trip -/

theorem escapeByte_bytes (b : Nat) (hb : b < 256) : ∀ x ∈ escapeByte b, x < 256 := by
  intro x hx
  have hh1 : hexDigitChar (b / 16) < 256 := by rw [hexDigitChar]; split <;> omega
  have hh2 : hexDigitChar (b % 16) < 256 := by rw [hexDigitChar]; split <;> omega
  rw [escapeByte] at hx
  repeat' split at hx
  all_goals simp at hx
  all_goals omega

theorem escapeBytes_bytes :
    ∀ (fuel : Nat) (s : List Nat), ∀ x ∈ escapeBytes fuel s, x < 256 := by
  intro fuel
  induction fuel with
  | zero =>
    intro s x hx
    match s with
    | [] => simp [show escapeBytes 0 ([] : List Nat) = [] from rfl] at hx
    | b :: tl => simp [show escapeBytes 0 (b :: tl) = [] from rfl] at hx
  | succ f ih =>
    intro s x hx
    match s with
    | [] => simp [show escapeBytes (f + 1) ([] : List Nat) = [] from rfl] at hx
    | b :: tl =>
      rw [escapeBytes] at hx
      by_cases hb : b < 128
      · rw [if_pos hb] at hx
        rcases List.mem_append.mp hx with h | h
        · exact escapeByte_bytes b (by omega) x h
        · exact ih tl x h
      · rw [if_neg hb] at hx
        rcases hdec : utf8Decode1 (b :: tl) with _ | ⟨c, rest2⟩
        · rw [hdec] at hx
          dsimp only at hx
          simp only [List.mem_cons] at hx
          rcases hx with rfl | rfl | rfl | rfl | rfl | rfl | h
          · omega
          · omega
          · omega
          · omega
          · omega
          · omega
          · exact ih tl x h
        · rw [hdec] at hx
          dsimp only at hx
          rcases List.mem_append.mp hx with h | h
          · have := (utf8Decode1_spec _ _ _ hdec).2.2.1 x h
            omega
          · exact ih rest2 x h

theorem jsonStringBytes_bytes (s : List Nat) : ∀ x ∈ jsonStringBytes s, x < 256 := by
  intro x hx
  rw [jsonStringBytes] at hx
  rcases List.mem_cons.mp hx with h | h
  · omega
  · rcases List.mem_append.mp h with h1 | h1
    · exact escapeBytes_bytes _ _ x h1
    · simp at h1; omega

theorem jsonEntryBytes_bytes (k : Int) (v : List Nat) :
    ∀ x ∈ jsonEntryBytes k v, x < 256 := by
  intro x hx
  rw [jsonEntryBytes] at hx
  rcases List.mem_append.mp hx with h | h
  · exact jsonStringBytes_bytes _ x h
  · rcases List.mem_cons.mp h with h1 | h1
    · omega
    · exact jsonStringBytes_bytes v x h1

theorem jsonEntriesBytes_bytes (m : List (Int × List Nat)) :
    ∀ x ∈ jsonEntriesBytes m, x < 256 := by
  induction m with
  | nil => intro x hx; simp [jsonEntriesBytes] at hx
  | cons p rest ih =>
    intro x hx
    obtain ⟨k, v⟩ := p
    match rest with
    | [] =>
      rw [jsonEntriesBytes] at hx
      exact jsonEntryBytes_bytes k v x hx
    | e :: rest2 =>
      rw [jsonEntriesBytes] at hx
      rcases List.mem_append.mp hx with h | h
      · exact jsonEntryBytes_bytes k v x h
      · rcases List.mem_cons.mp h with h1 | h1
        · omega
        · exact ih x h1

theorem marshalCursors_bytes (m : List (Int × List Nat)) :
    ∀ x ∈ marshalCursors m, x < 256 := by
  intro x hx
  rw [marshalCursors] at hx
  rcases List.mem_cons.mp hx with h | h
  · omega
  · rcases List.mem_append.mp h with h1 | h1
    · exact jsonEntriesBytes_bytes m x h1
    · simp at h1; omega

/-- Unmarshalling inverts marshalling for every nonempty map with in-range
keys, no duplicate keys, and valid-UTF-8 token values. -/
theorem unmarshalCursors_marshalCursors (m : List (Int × List Nat)) (hm : m ≠ [])
    (hnd : (m.map Prod.fst).Nodup)
    (hrange : ∀ p ∈ m, -9223372036854775808 ≤ p.1 ∧ p.1 ≤ 9223372036854775807)
    (hval : ∀ p ∈ m, utf8Valid p.2.length p.2 = true) :
    unmarshalCursors (marshalCursors m) = some m := by
  obtain ⟨t, ht⟩ := jsonEntriesBytes_shape m hm
  have hshape : marshalCursors m = 123 :: (34 :: (t ++ [125])) := by
    rw [marshalCursors, ht]; rfl
  rw [hshape, unmarshalCursors, skipWs_123]
  dsimp only
  rw [show skipWs (34 :: (t ++ [125])) = 34 :: (t ++ [125]) from rfl]
  dsimp only
  have hback : (34 :: (t ++ [125]) : List Nat) = jsonEntriesBytes m ++ [125] := by
    rw [ht]; rfl
  rw [hback]
  rw [parseMembers_entries m _ [] hm (by
    have := jsonEntriesBytes_length m
    simp only [List.length_append, List.length_cons]
    omega) hrange hval]
  dsimp only
  rw [foldl_insertPair m [] hnd (by intro p _ q hq; simp at hq)]
  rfl

/-- The codec round trip below `readCursor`/`makeCursor`: decoding the
encoding of a nonempty map with in-range keys, no duplicate keys and
valid-UTF-8 token values yields the map back. -/
theorem readCursor_b64_marshal (m : List (Int × List Nat)) (hm : m ≠ [])
    (hnd : (m.map Prod.fst).Nodup)
    (hrange : ∀ p ∈ m, -9223372036854775808 ≤ p.1 ∧ p.1 ≤ 9223372036854775807)
    (hval : ∀ p ∈ m, utf8Valid p.2.length p.2 = true) :
    readCursor (some (b64encode (marshalCursors m))) = .ok m := by
  rw [readCursor]
  rw [b64decode_b64encode (marshalCursors m) (marshalCursors_bytes m)]
  dsimp only
  rw [unmarshalCursors_marshalCursors m hm hnd hrange hval]

theorem makeCursor_ne_nil (m : List (Int × List Nat)) (hm : m ≠ []) :
    makeCursor m = .ok (b64encode (marshalCursors m)) ∧
      b64encode (marshalCursors m) ≠ [] := by
  constructor
  · rw [makeCursor, if_neg hm]
  · exact b64encode_ne_nil _ (by rw [marshalCursors]; simp)

/-! ## The resolver (`lsifQueryResolver`)

The three operations below translate `Definitions`, `References` and `Hover`
of `lsifQueryResolver`.  The per-upload backend (`client.DefaultClient`) is
an external collaborator and enters as a function parameter; location,
range, provider-metadata and backend-error values are opaque to the
resolver and stay type parameters.  Each operation returns a pair: the
first component records the option structs of the backend calls actually
issued, in order (the effect visible to the backend), the second component
is the Go return value. -/

/-- DecidableEq for `Except`, so concrete runs can be checked by `decide`. -/
def exceptDecEq {ε α : Type} [DecidableEq ε] [DecidableEq α] :
    DecidableEq (Except ε α) := fun x y =>
  match x, y with
  | .ok a, .ok b =>
    if h : a = b then .isTrue (congrArg Except.ok h)
    else .isFalse (fun hc => h (Except.ok.inj hc))
  | .error a, .error b =>
    if h : a = b then .isTrue (congrArg Except.error h)
    else .isFalse (fun hc => h (Except.error.inj hc))
  | .ok _, .error _ => .isFalse (fun hc => Except.noConfusion hc)
  | .error _, .ok _ => .isFalse (fun hc => Except.noConfusion hc)

instance {ε α : Type} [DecidableEq ε] [DecidableEq α] : DecidableEq (Except ε α) :=
  exceptDecEq

/-- `lsif.LSIFUpload`, reduced to the one field the resolver reads. -/
structure LSIFUpload where
  id : Int
deriving DecidableEq

/-- The resolver value: repository, commit, path and the candidate uploads. -/
structure lsifQueryResolver where
  repoID : Int
  commit : List Nat
  path : List Nat
  uploads : List LSIFUpload
deriving DecidableEq

/-- `graphqlbackend.LSIFQueryPositionArgs`. -/
structure LSIFQueryPositionArgs where
  line : Int
  character : Int
deriving DecidableEq

/-- `graphqlbackend.LSIFPagedQueryPositionArgs` (`First` and `After` are the
optional page size and cursor). -/
structure LSIFPagedQueryPositionArgs where
  line : Int
  character : Int
  first : Option Int
  after : Option (List Nat)
deriving DecidableEq

/-- The anonymous option struct passed to the backend `Definitions` and
`Hover` calls. -/
structure QueryOpts where
  repoID : Int
  commit : List Nat
  path : List Nat
  line : Int
  character : Int
  uploadID : Int
deriving DecidableEq

/-- The anonymous option struct passed to the backend `References` calls
(adds the optional per-call limit and continuation cursor). -/
structure RefQueryOpts where
  repoID : Int
  commit : List Nat
  path : List Nat
  line : Int
  character : Int
  uploadID : Int
  limit : Option Int
  cursor : Option (List Nat)
deriving DecidableEq

/-- `locationConnectionResolver`: merged locations plus the end cursor
(empty for the unpaginated operations). -/
structure LocationConnection (α : Type) where
  locations : List α
  endCursor : List Nat
deriving DecidableEq

/-- Errors surfaced by `References`: a cursor codec failure or a backend
error, each propagated unchanged. -/
inductive RefError (ε : Type) where
  | cursor : CursorError → RefError ε
  | backend : ε → RefError ε
deriving DecidableEq

/-- The option struct built for one upload in `Definitions`/`Hover`. -/
def defOpts (r : lsifQueryResolver) (args : LSIFQueryPositionArgs) (uid : Int) : QueryOpts :=
  ⟨r.repoID, r.commit, r.path, args.line, args.character, uid⟩

/-- The option struct built for one upload in `References`: `Limit` is set
exactly when `args.First` is present, `Cursor` exactly when the incoming
cursor map has an entry for the upload. -/
def refOpts (r : lsifQueryResolver) (args : LSIFPagedQueryPositionArgs) (uid : Int)
    (cursor : Option (List Nat)) : RefQueryOpts :=
  ⟨r.repoID, r.commit, r.path, args.line, args.character, uid, args.first, cursor⟩

/-- The upload loop of `Definitions`: sequential backend calls, locations
appended in candidate order, the first error aborting the loop. -/
def definitionsLoop {α μ ε : Type} (client : QueryOpts → Except ε (List α × μ))
    (r : lsifQueryResolver) (args : LSIFQueryPositionArgs) :
    List α → List LSIFUpload → List QueryOpts × Except ε (List α)
  | acc, [] => ([], .ok acc)
  | acc, u :: rest =>
    let opts := defOpts r args u.id
    match client opts with
    | .error e => ([opts], .error e)
    | .ok (locs, _) =>
      let res := definitionsLoop client r args (acc ++ locs) rest
      (opts :: res.1, res.2)

/-- `lsifQueryResolver.Definitions`. -/
def Definitions {α μ ε : Type} (client : QueryOpts → Except ε (List α × μ))
    (r : lsifQueryResolver) (args : LSIFQueryPositionArgs) :
    List QueryOpts × Except ε (LocationConnection α) :=
  match definitionsLoop client r args [] r.uploads with
  | (tr, .error e) => (tr, .error e)
  | (tr, .ok allLocations) => (tr, .ok ⟨allLocations, []⟩)

/-- The upload loop of `References`: every candidate upload is visited; the
call carries the upload's incoming continuation cursor when the decoded
cursor map has one; a nonempty returned next-page token is recorded in the
outgoing map; the first error aborts the loop. -/
def referencesLoop {α ε : Type} (client : RefQueryOpts → Except ε (List α × List Nat))
    (r : lsifQueryResolver) (args : LSIFPagedQueryPositionArgs)
    (nextURLs : List (Int × List Nat)) :
    List α → List (Int × List Nat) → List LSIFUpload →
      List RefQueryOpts × Except ε (List α × List (Int × List Nat))
  | acc, newCursors, [] => ([], .ok (acc, newCursors))
  | acc, newCursors, u :: rest =>
    let opts := refOpts r args u.id (lookupPair nextURLs u.id)
    match client opts with
    | .error e => ([opts], .error e)
    | .ok (locs, nextURL) =>
      let nc2 := if nextURL = [] then newCursors else insertPair newCursors u.id nextURL
      let res := referencesLoop client r args nextURLs (acc ++ locs) nc2 rest
      (opts :: res.1, res.2)

/-- `lsifQueryResolver.References`: decode the incoming cursor, run the
upload loop, encode the outgoing cursor map into the page's end cursor. -/
def References {α ε : Type} (client : RefQueryOpts → Except ε (List α × List Nat))
    (r : lsifQueryResolver) (args : LSIFPagedQueryPositionArgs) :
    List RefQueryOpts × Except (RefError ε) (LocationConnection α) :=
  match readCursor args.after with
  | .error e => ([], .error (.cursor e))
  | .ok nextURLs =>
    match referencesLoop client r args nextURLs [] [] r.uploads with
    | (tr, .error e) => (tr, .error (.backend e))
    | (tr, .ok (allLocations, newCursors)) =>
      match makeCursor newCursors with
      | .error e => (tr, .error (.cursor e))
      | .ok endCursor => (tr, .ok ⟨allLocations, endCursor⟩)

/-- The upload loop of `Hover`: calls stop at the first upload whose hover
text is nonempty (returned as the result) or at the first error; if every
upload reports empty text the result is `none` with no error. -/
def hoverLoop {ρ ε : Type} (client : QueryOpts → Except ε (List Nat × ρ))
    (r : lsifQueryResolver) (args : LSIFQueryPositionArgs) :
    List LSIFUpload → List QueryOpts × Except ε (Option (List Nat × ρ))
  | [] => ([], .ok none)
  | u :: rest =>
    let opts := defOpts r args u.id
    match client opts with
    | .error e => ([opts], .error e)
    | .ok (text, lspRange) =>
      if text = [] then
        let res := hoverLoop client r args rest
        (opts :: res.1, res.2)
      else ([opts], .ok (some (text, lspRange)))

/-- `lsifQueryResolver.Hover`. -/
def Hover {ρ ε : Type} (client : QueryOpts → Except ε (List Nat × ρ))
    (r : lsifQueryResolver) (args : LSIFQueryPositionArgs) :
    List QueryOpts × Except ε (Option (List Nat × ρ)) :=
  hoverLoop client r args r.uploads

/-! ## Loop lemmas -/

theorem insertPair_keys (m : List (Int × List Nat)) (k : Int) (v : List Nat) :
    ∀ p ∈ insertPair m k v, p.1 = k ∨ p ∈ m := by
  induction m with
  | nil => intro p hp; simp [insertPair] at hp; simp [hp]
  | cons q rest ih =>
    intro p hp
    obtain ⟨k2, v2⟩ := q
    rw [insertPair] at hp
    split at hp
    · rcases List.mem_cons.mp hp with h | h
      · simp [h]
      · simp [h]
    · rcases List.mem_cons.mp hp with h | h
      · simp [h]
      · rcases ih p h with h1 | h1
        · simp [h1]
        · simp [h1]

/-- Every backend call `References` issues is the option struct of some
candidate upload, with that upload's incoming continuation cursor. -/
theorem referencesLoop_calls {α ε : Type} (client : RefQueryOpts → Except ε (List α × List Nat))
    (r : lsifQueryResolver) (args : LSIFPagedQueryPositionArgs)
    (nextURLs : List (Int × List Nat)) :
    ∀ (uploads : List LSIFUpload) (acc : List α) (nc : List (Int × List Nat)) (o : RefQueryOpts),
      o ∈ (referencesLoop client r args nextURLs acc nc uploads).1 →
      ∃ u, u ∈ uploads ∧ o = refOpts r args u.id (lookupPair nextURLs u.id) := by
  intro uploads
  induction uploads with
  | nil => intro acc nc o ho; simp [referencesLoop] at ho
  | cons u rest ih =>
    intro acc nc o ho
    rw [referencesLoop] at ho
    rcases hcl : client (refOpts r args u.id (lookupPair nextURLs u.id)) with e | res
    · rw [hcl] at ho
      simp at ho
      exact ⟨u, by simp, ho⟩
    · rw [hcl] at ho
      obtain ⟨locs, nextURL⟩ := res
      dsimp only at ho
      rcases List.mem_cons.mp ho with h | h
      · exact ⟨u, by simp, h⟩
      · obtain ⟨v, hv, hvo⟩ := ih _ _ o h
        exact ⟨v, by simp [hv], hvo⟩

/-- If the backend answers every queried upload, the reference loop
succeeds. -/
theorem referencesLoop_success {α ε : Type}
    (client : RefQueryOpts → Except ε (List α × List Nat))
    (r : lsifQueryResolver) (args : LSIFPagedQueryPositionArgs)
    (nextURLs : List (Int × List Nat)) :
    ∀ (uploads : List LSIFUpload) (acc : List α) (nc : List (Int × List Nat)),
      (∀ u ∈ uploads, ∃ w, client (refOpts r args u.id (lookupPair nextURLs u.id)) = .ok w) →
      ∃ locs nc2, (referencesLoop client r args nextURLs acc nc uploads).2 = .ok (locs, nc2) := by
  intro uploads
  induction uploads with
  | nil => intro acc nc _; exact ⟨acc, nc, rfl⟩
  | cons u rest ih =>
    intro acc nc hc
    obtain ⟨⟨locs, nextURL⟩, hw⟩ := hc u (by simp)
    rw [referencesLoop, hw]
    dsimp only
    exact ih _ _ (fun v hv => hc v (by simp [hv]))

/-- Keys of the outgoing cursor map come from the initial accumulator or
from the visited uploads. -/
theorem referencesLoop_newCursors_keys {α ε : Type}
    (client : RefQueryOpts → Except ε (List α × List Nat))
    (r : lsifQueryResolver) (args : LSIFPagedQueryPositionArgs)
    (nextURLs : List (Int × List Nat)) :
    ∀ (uploads : List LSIFUpload) (acc : List α) (nc : List (Int × List Nat))
      (locs : List α) (nc2 : List (Int × List Nat)),
      (referencesLoop client r args nextURLs acc nc uploads).2 = .ok (locs, nc2) →
      ∀ p ∈ nc2, p ∈ nc ∨ p.1 ∈ uploads.map LSIFUpload.id := by
  intro uploads
  induction uploads with
  | nil =>
    intro acc nc locs nc2 hok p hp
    simp only [referencesLoop, Except.ok.injEq, Prod.mk.injEq] at hok
    exact Or.inl (hok.2 ▸ hp)
  | cons u rest ih =>
    intro acc nc locs nc2 hok p hp
    rw [referencesLoop] at hok
    rcases hcl : client (refOpts r args u.id (lookupPair nextURLs u.id)) with e | res
    · rw [hcl] at hok; simp at hok
    · rw [hcl] at hok
      obtain ⟨ls, nextURL⟩ := res
      dsimp only at hok
      by_cases htok : nextURL = []
      · rw [if_pos htok] at hok
        rcases ih _ _ _ _ hok p hp with h | h
        · exact Or.inl h
        · exact Or.inr (by simp [h])
      · rw [if_neg htok] at hok
        rcases ih _ _ _ _ hok p hp with h | h
        · rcases insertPair_keys nc u.id nextURL p h with h1 | h1
          · exact Or.inr (by simp [h1])
          · exact Or.inl h1
        · exact Or.inr (by simp [h])

/-- Full characterisation of a successful reference loop run: calls in
candidate order, locations concatenated in candidate order, the outgoing
cursor map extended by exactly the uploads with a nonempty returned
token. -/
theorem referencesLoop_ok {α ε : Type}
    (client : RefQueryOpts → Except ε (List α × List Nat))
    (r : lsifQueryResolver) (args : LSIFPagedQueryPositionArgs)
    (nextURLs : List (Int × List Nat)) (f : Int → List α × List Nat) :
    ∀ (uploads : List LSIFUpload) (acc : List α) (nc : List (Int × List Nat)),
      (∀ u ∈ uploads, client (refOpts r args u.id (lookupPair nextURLs u.id)) = .ok (f u.id)) →
      (uploads.map LSIFUpload.id).Nodup →
      (∀ u ∈ uploads, ∀ q ∈ nc, q.1 ≠ u.id) →
      referencesLoop client r args nextURLs acc nc uploads =
        (uploads.map (fun u => refOpts r args u.id (lookupPair nextURLs u.id)),
          .ok (acc ++ (uploads.map (fun u => (f u.id).1)).flatten,
            nc ++ uploads.filterMap (fun u =>
              if (f u.id).2 = [] then none else some (u.id, (f u.id).2)))) := by
  intro uploads
  induction uploads with
  | nil => intro acc nc _ _ _; simp [referencesLoop]
  | cons u rest ih =>
    intro acc nc hc hnd hdis
    have hnd2 : (rest.map LSIFUpload.id).Nodup := by
      simp only [List.map_cons, List.nodup_cons] at hnd
      exact hnd.2
    have hu : u.id ∉ rest.map LSIFUpload.id := by
      simp only [List.map_cons, List.nodup_cons] at hnd
      exact hnd.1
    rw [referencesLoop, hc u (by simp)]
    dsimp only
    by_cases htok : (f u.id).2 = []
    · rw [if_pos htok]
      rw [ih (acc ++ (f u.id).1) nc (fun v hv => hc v (by simp [hv])) hnd2
        (fun v hv q hq => hdis v (by simp [hv]) q hq)]
      simp [htok, List.filterMap_cons]
    · rw [if_neg htok]
      have hins : insertPair nc u.id (f u.id).2 = nc ++ [(u.id, (f u.id).2)] :=
        insertPair_not_mem nc u.id (f u.id).2 (fun q hq => hdis u (by simp) q hq)
      rw [hins]
      rw [ih (acc ++ (f u.id).1) (nc ++ [(u.id, (f u.id).2)])
        (fun v hv => hc v (by simp [hv])) hnd2 ?_]
      · simp [htok, List.filterMap_cons]
      · intro v hv q hq
        rcases List.mem_append.mp hq with h1 | h1
        · exact hdis v (by simp [hv]) q h1
        · have hq2 : q = (u.id, (f u.id).2) := by simpa using h1
          subst hq2
          intro heq
          have heq2 : u.id = v.id := heq
          exact hu (by
            rw [heq2]
            exact List.mem_map.mpr ⟨v, hv, rfl⟩)

/-- Characterisation of a successful definitions loop run. -/
theorem definitionsLoop_ok {α μ ε : Type} (client : QueryOpts → Except ε (List α × μ))
    (r : lsifQueryResolver) (args : LSIFQueryPositionArgs) (f : Int → List α × μ) :
    ∀ (uploads : List LSIFUpload) (acc : List α),
      (∀ u ∈ uploads, client (defOpts r args u.id) = .ok (f u.id)) →
      definitionsLoop client r args acc uploads =
        (uploads.map (fun u => defOpts r args u.id),
          .ok (acc ++ (uploads.map (fun u => (f u.id).1)).flatten)) := by
  intro uploads
  induction uploads with
  | nil => intro acc _; simp [definitionsLoop]
  | cons u rest ih =>
    intro acc hc
    rw [definitionsLoop, hc u (by simp)]
    dsimp only
    rw [ih (acc ++ (f u.id).1) (fun v hv => hc v (by simp [hv]))]
    simp

/-- A definitions loop aborts with the backend's error at the first failing
upload, discarding everything already collected. -/
theorem definitionsLoop_error {α μ ε : Type} (client : QueryOpts → Except ε (List α × μ))
    (r : lsifQueryResolver) (args : LSIFQueryPositionArgs)
    (u : LSIFUpload) (e : ε) (he : client (defOpts r args u.id) = .error e) :
    ∀ (pre post : List LSIFUpload) (acc : List α),
      (∀ v ∈ pre, ∃ w, client (defOpts r args v.id) = .ok w) →
      (definitionsLoop client r args acc (pre ++ u :: post)).2 = .error e := by
  intro pre
  induction pre with
  | nil =>
    intro post acc _
    rw [List.nil_append, definitionsLoop, he]
  | cons v pre2 ih =>
    intro post acc hpre
    obtain ⟨⟨locs, meta⟩, hw⟩ := hpre v (by simp)
    rw [List.cons_append, definitionsLoop, hw]
    dsimp only
    exact ih post _ (fun w hw2 => hpre w (by simp [hw2]))

/-- A reference loop aborts with the backend's error at the first failing
upload. -/
theorem referencesLoop_error {α ε : Type}
    (client : RefQueryOpts → Except ε (List α × List Nat))
    (r : lsifQueryResolver) (args : LSIFPagedQueryPositionArgs)
    (nextURLs : List (Int × List Nat)) (u : LSIFUpload) (e : ε)
    (he : client (refOpts r args u.id (lookupPair nextURLs u.id)) = .error e) :
    ∀ (pre post : List LSIFUpload) (acc : List α) (nc : List (Int × List Nat)),
      (∀ v ∈ pre, ∃ w, client (refOpts r args v.id (lookupPair nextURLs v.id)) = .ok w) →
      (referencesLoop client r args nextURLs acc nc (pre ++ u :: post)).2 = .error e := by
  intro pre
  induction pre with
  | nil =>
    intro post acc nc _
    rw [List.nil_append, referencesLoop, he]
  | cons v pre2 ih =>
    intro post acc nc hpre
    obtain ⟨⟨locs, nextURL⟩, hw⟩ := hpre v (by simp)
    rw [List.cons_append, referencesLoop, hw]
    dsimp only
    exact ih post _ _ (fun w hw2 => hpre w (by simp [hw2]))

/-- A hover loop aborts with the backend's error at the first failing
upload, provided every earlier upload reported empty text. -/
theorem hoverLoop_error {ρ ε : Type} (client : QueryOpts → Except ε (List Nat × ρ))
    (r : lsifQueryResolver) (args : LSIFQueryPositionArgs)
    (u : LSIFUpload) (e : ε) (he : client (defOpts r args u.id) = .error e) :
    ∀ (pre post : List LSIFUpload),
      (∀ v ∈ pre, ∃ rng, client (defOpts r args v.id) = .ok ([], rng)) →
      (hoverLoop client r args (pre ++ u :: post)).2 = .error e := by
  intro pre
  induction pre with
  | nil =>
    intro post _
    rw [List.nil_append, hoverLoop, he]
  | cons v pre2 ih =>
    intro post hpre
    obtain ⟨rng, hw⟩ := hpre v (by simp)
    rw [List.cons_append, hoverLoop, hw]
    dsimp only
    rw [if_pos rfl]
    exact ih post (fun w hw2 => hpre w (by simp [hw2]))

/-- Specification-side description (from §4.4 of the design) of which
uploads Hover queries: every leading upload whose hover text is empty, then
the first upload with nonempty text, if any.  Stated from the spec's words,
to be compared with the translated `Hover`. -/
def hoverSpecQueried {ρ : Type} (f : Int → List Nat × ρ) : List LSIFUpload → List LSIFUpload
  | [] => []
  | u :: rest => if (f u.id).1 = [] then u :: hoverSpecQueried f rest else [u]

/-- Specification-side description of Hover's result: the first upload's
nonempty hover data in candidate order, `none` when every upload reports
empty text. -/
def hoverSpecResult {ρ : Type} (f : Int → List Nat × ρ) :
    List LSIFUpload → Option (List Nat × ρ)
  | [] => none
  | u :: rest => if (f u.id).1 = [] then hoverSpecResult f rest else some (f u.id)

/-- The hover loop realises the specification-side description whenever the
backend answers every call. -/
theorem hoverLoop_char {ρ ε : Type} (client : QueryOpts → Except ε (List Nat × ρ))
    (r : lsifQueryResolver) (args : LSIFQueryPositionArgs) (f : Int → List Nat × ρ) :
    ∀ uploads : List LSIFUpload,
      (∀ u ∈ uploads, client (defOpts r args u.id) = .ok (f u.id)) →
      hoverLoop client r args uploads =
        ((hoverSpecQueried f uploads).map (fun u => defOpts r args u.id),
          .ok (hoverSpecResult f uploads)) := by
  intro uploads
  induction uploads with
  | nil => intro _; rfl
  | cons u rest ih =>
    intro hc
    rw [hoverLoop, hc u (by simp)]
    dsimp only
    by_cases hemp : (f u.id).1 = []
    · rw [if_pos hemp, ih (fun v hv => hc v (by simp [hv]))]
      rw [hoverSpecQueried, hoverSpecResult, if_pos hemp, if_pos hemp]
      rfl
    · rw [if_neg hemp, hoverSpecQueried, hoverSpecResult, if_neg hemp, if_neg hemp]
      rfl

/-- `makeCursor` never fails; its payload is empty exactly for the empty
map. -/
theorem makeCursor_eq (m : List (Int × List Nat)) :
    makeCursor m = .ok (if m = [] then [] else b64encode (marshalCursors m)) := by
  rw [makeCursor]
  by_cases h : m = []
  · rw [if_pos h, if_pos h]
  · rw [if_neg h, if_neg h]

theorem referencesLoop_trace_cons {α ε : Type}
    (client : RefQueryOpts → Except ε (List α × List Nat))
    (r : lsifQueryResolver) (args : LSIFPagedQueryPositionArgs)
    (nextURLs : List (Int × List Nat)) (acc : List α) (nc : List (Int × List Nat))
    (u : LSIFUpload) (rest : List LSIFUpload) (w : List α × List Nat)
    (hc : client (refOpts r args u.id (lookupPair nextURLs u.id)) = .ok w) :
    (referencesLoop client r args nextURLs acc nc (u :: rest)).1 =
      refOpts r args u.id (lookupPair nextURLs u.id) ::
        (referencesLoop client r args nextURLs (acc ++ w.1)
          (if w.2 = [] then nc else insertPair nc u.id w.2) rest).1 := by
  obtain ⟨wl, wt⟩ := w
  rw [referencesLoop, hc]

theorem referencesLoop_trace_last {α ε : Type}
    (client : RefQueryOpts → Except ε (List α × List Nat))
    (r : lsifQueryResolver) (args : LSIFPagedQueryPositionArgs)
    (nextURLs : List (Int × List Nat)) (acc : List α) (nc : List (Int × List Nat))
    (u : LSIFUpload) :
    (referencesLoop client r args nextURLs acc nc [u]).1 =
      [refOpts r args u.id (lookupPair nextURLs u.id)] := by
  rcases hc : client (refOpts r args u.id (lookupPair nextURLs u.id)) with e | w
  · rw [referencesLoop, hc]
  · obtain ⟨wl, wt⟩ := w
    rw [referencesLoop, hc]
    rfl

/-- On a page whose incoming cursor decodes, the calls `References` issues
are exactly the reference loop's calls. -/
theorem References_trace {α ε : Type} (client : RefQueryOpts → Except ε (List α × List Nat))
    (r : lsifQueryResolver) (args : LSIFPagedQueryPositionArgs)
    (m : List (Int × List Nat)) (hm : readCursor args.after = .ok m) :
    (References client r args).1 = (referencesLoop client r args m [] [] r.uploads).1 := by
  simp only [References, hm]
  rcases hres : referencesLoop client r args m [] [] r.uploads with ⟨tr, res⟩
  rcases res with e | ⟨locs, nc⟩
  · rfl
  · dsimp only
    rcases hmc : makeCursor nc with e2 | s
    · rfl
    · rfl

/-- Every backend call of a References page belongs to a candidate upload
and carries that upload's incoming continuation cursor. -/
theorem References_calls {α ε : Type} (client : RefQueryOpts → Except ε (List α × List Nat))
    (r : lsifQueryResolver) (args : LSIFPagedQueryPositionArgs)
    (m : List (Int × List Nat)) (hm : readCursor args.after = .ok m) (o : RefQueryOpts)
    (ho : o ∈ (References client r args).1) :
    ∃ u, u ∈ r.uploads ∧ o = refOpts r args u.id (lookupPair m u.id) := by
  rw [References_trace client r args m hm] at ho
  exact referencesLoop_calls client r args m r.uploads [] [] o ho

/-- Characterisation of a whole successful References page. -/
theorem References_ok {α ε : Type} (client : RefQueryOpts → Except ε (List α × List Nat))
    (r : lsifQueryResolver) (args : LSIFPagedQueryPositionArgs)
    (m : List (Int × List Nat)) (f : Int → List α × List Nat)
    (hm : readCursor args.after = .ok m)
    (hnd : (r.uploads.map LSIFUpload.id).Nodup)
    (hc : ∀ u ∈ r.uploads, client (refOpts r args u.id (lookupPair m u.id)) = .ok (f u.id)) :
    References client r args =
      (r.uploads.map (fun u => refOpts r args u.id (lookupPair m u.id)),
        .ok ⟨(r.uploads.map (fun u => (f u.id).1)).flatten,
          if r.uploads.filterMap (fun u =>
              if (f u.id).2 = [] then none else some (u.id, (f u.id).2)) = [] then []
          else b64encode (marshalCursors (r.uploads.filterMap (fun u =>
            if (f u.id).2 = [] then none else some (u.id, (f u.id).2))))⟩) := by
  simp only [References, hm]
  rw [referencesLoop_ok client r args m f r.uploads [] [] hc hnd
    (fun u _ q hq => by simp at hq)]
  dsimp only
  rw [makeCursor_eq]
  simp

/-! ## The claims -/

/-- Claim C2, counterexample: the round trip fails at the empty map and at
tokens that are not valid UTF-8. `makeCursor` of the empty map yields the
empty string, but `readCursor` of that (present) empty string is an error —
`base64` of `""` is zero bytes and `json.Unmarshal` of zero bytes fails —
not the empty map. And the map `{1 ↦ 0xFF}` encodes to `{"1":"�"}`
(`json.Marshal` coerces invalid UTF-8 to U+FFFD), which decodes to
`{1 ↦ EF BF BD}`, not the original map. -/
theorem C2_counterexample :
    (makeCursor ([] : List (Int × List Nat)) = .ok [] ∧
      readCursor (some []) = .error CursorError.jsonError) ∧
      makeCursor [(1, [255])] =
        .ok (b64encode (marshalCursors [(1, [255])])) ∧
      readCursor (some (b64encode (marshalCursors [(1, [255])]))) =
        .ok [(1, [239, 191, 189])] := ⟨⟨rfl, rfl⟩, rfl, by decide⟩

/-- Claim C2 (amended): for every NONEMPTY cursor map with int64 keys, no
duplicate keys and token strings that are valid UTF-8, decoding the string
produced by encoding the map succeeds and yields the map back (even as a
list); the empty map encodes to the empty string, which decodes only as the
absent token, and a token with invalid UTF-8 is coerced to U+FFFD by the
JSON encoder and so does not survive the round trip. -/
theorem C2_roundtrip (m : List (Int × List Nat)) (hm : m ≠ [])
    (hnd : (m.map Prod.fst).Nodup)
    (hrange : ∀ p ∈ m, -9223372036854775808 ≤ p.1 ∧ p.1 ≤ 9223372036854775807)
    (hval : ∀ p ∈ m, utf8Valid p.2.length p.2 = true) :
    ∃ s, makeCursor m = .ok s ∧ readCursor (some s) = .ok m := by
  refine ⟨b64encode (marshalCursors m), ?_, ?_⟩
  · rw [makeCursor, if_neg hm]
  · exact readCursor_b64_marshal m hm hnd hrange hval

theorem C2_roundtrip_witness :
    ∃ s, makeCursor [(1, [97])] = .ok s ∧ readCursor (some s) = .ok [(1, [97])] :=
  C2_roundtrip [(1, [97])] (by decide) (by decide) (by decide) (by decide)

/-- Claim C3, counterexample: decoding the PRESENT empty string does not
return an empty cursor map: `base64` of `""` is zero bytes, and
`json.Unmarshal` of zero bytes fails ("unexpected end of JSON input"), so
`readCursor` returns that error. -/
theorem C3_counterexample :
    readCursor (some []) = .error CursorError.jsonError := rfl

/-- Claim C3 (amended): `makeCursor` of the empty map returns the empty
string with no error, and `readCursor` of an ABSENT (nil) token returns an
empty cursor map with no error; `readCursor` of a present empty string,
however, returns a JSON error, not an empty map. -/
theorem C3_sentinels :
    makeCursor ([] : List (Int × List Nat)) = .ok [] ∧
      readCursor none = .ok [] ∧
      readCursor (some []) = .error CursorError.jsonError := ⟨rfl, rfl, rfl⟩

/-- Claim C4, counterexample: three non-empty strings the claim calls
malformed are in fact accepted. `bnVsbA==` is valid base64 whose decoded
bytes are the JSON literal `null` — not a JSON mapping — yet `readCursor`
returns an empty map with NO error, because `json.Unmarshal` of `null` into
a map is a no-op; a newline inside the base64 (`bnVsbA==` followed by LF)
is ignored by `base64.StdEncoding.DecodeString`; and the base64 encoding of
`{"1":null}` decodes to the map `{1 ↦ ""}` with no error, because
`json.Unmarshal` stores the zero value for a `null` member. -/
theorem C4_counterexample :
    (b64decode [98, 110, 86, 115, 98, 65, 61, 61] = some [110, 117, 108, 108] ∧
      readCursor (some [98, 110, 86, 115, 98, 65, 61, 61]) = .ok []) ∧
      readCursor (some [98, 110, 86, 115, 98, 65, 61, 61, 10]) = .ok [] ∧
      readCursor (some (b64encode [123, 34, 49, 34, 58, 110, 117, 108, 108, 125])) =
        .ok [(1, [])] := ⟨⟨rfl, rfl⟩, rfl, by decide⟩

/-- Claim C4 (amended): for every non-empty input string that is not valid
base64, or whose base64-decoded bytes fail to unmarshal as a
`map[int64]string` — the JSON literal `null` is excluded, since it
unmarshals into an empty (nil) map with no error — `readCursor` returns an
error and no map, and a References request carrying that cursor fails
immediately with that error, issuing no backend calls. -/
theorem C4_malformed (s : List Nat) (_hne : s ≠ [])
    (hbad : b64decode s = none ∨
      ∃ bs, b64decode s = some bs ∧ unmarshalCursors bs = none) :
    ∃ e, readCursor (some s) = .error e ∧
      ∀ (α ε : Type) (client : RefQueryOpts → Except ε (List α × List Nat))
        (r : lsifQueryResolver) (args : LSIFPagedQueryPositionArgs),
        args.after = some s →
        References client r args = ([], .error (.cursor e)) := by
  rcases hbad with h | ⟨bs, h1, h2⟩
  · have hr : readCursor (some s) = .error .base64Error := by
      simp only [readCursor, h]
    exact ⟨.base64Error, hr, fun α ε client r args ha => by
      simp only [References, ha, hr]⟩
  · have hr : readCursor (some s) = .error .jsonError := by
      simp only [readCursor, h1, h2]
    exact ⟨.jsonError, hr, fun α ε client r args ha => by
      simp only [References, ha, hr]⟩

theorem C4_malformed_witness :
    ∃ e, readCursor (some [33]) = .error e ∧
      References (fun _ => Except.ok (([] : List Nat), ([] : List Nat)) :
          RefQueryOpts → Except Nat (List Nat × List Nat))
        ⟨0, [], [], [⟨1⟩]⟩ ⟨0, 0, none, some [33]⟩ = ([], .error (.cursor e)) := by
  obtain ⟨e, h1, h2⟩ := C4_malformed [33] (by decide) (Or.inl (by decide))
  exact ⟨e, h1, h2 Nat Nat _ ⟨0, [], [], [⟨1⟩]⟩ ⟨0, 0, none, some [33]⟩ rfl⟩

/-- Claim C1, counterexample: with candidates [A(id 1), B(id 2)], a first
page where A returns token `tokA` and B an empty token produces the cursor
encoding `{A ↦ tokA}`; the second page built from that cursor nevertheless
issues backend calls for BOTH uploads — the loop visits every candidate
upload, it only omits the per-upload cursor for B. -/
theorem C1_counterexample :
    (References
        (fun o => if o.uploadID = 1 then Except.ok ([10], [116, 111, 107, 65])
          else Except.ok (([20] : List Nat), ([] : List Nat)) :
          RefQueryOpts → Except Nat (List Nat × List Nat))
        ⟨1, [], [], [⟨1⟩, ⟨2⟩]⟩ ⟨0, 0, none, none⟩).2 =
      .ok ⟨[10, 20], b64encode (marshalCursors [(1, [116, 111, 107, 65])])⟩ ∧
    ((References
        (fun o => if o.uploadID = 1 then Except.ok (([11] : List Nat), ([] : List Nat))
          else Except.ok ([21], []) :
          RefQueryOpts → Except Nat (List Nat × List Nat))
        ⟨1, [], [], [⟨1⟩, ⟨2⟩]⟩
        ⟨0, 0, none,
          some (b64encode (marshalCursors [(1, [116, 111, 107, 65])]))⟩).1).map
      RefQueryOpts.uploadID = [1, 2] := by
  constructor
  · decide
  · decide

/-- Claim C1 (amended): an upload with no entry in the incoming cursor map
is STILL queried on that page, with an absent per-upload cursor (its
pagination restarts): for candidates [A, B] and an incoming cursor carrying
only A ↦ tokA, the page issues a call for A with cursor tokA and then a
call for B with no cursor. -/
theorem C1_requery {α ε : Type} (client : RefQueryOpts → Except ε (List α × List Nat))
    (r : lsifQueryResolver) (args : LSIFPagedQueryPositionArgs)
    (A B : LSIFUpload) (tokA : List Nat) (w : List α × List Nat)
    (hup : r.uploads = [A, B]) (hAB : A.id ≠ B.id)
    (hA1 : -9223372036854775808 ≤ A.id) (hA2 : A.id ≤ 9223372036854775807)
    (_htok : tokA ≠ []) (hval : utf8Valid tokA.length tokA = true)
    (hafter : args.after = some (b64encode (marshalCursors [(A.id, tokA)])))
    (hcA : client (refOpts r args A.id (some tokA)) = .ok w) :
    (References client r args).1 =
      [refOpts r args A.id (some tokA), refOpts r args B.id none] := by
  have hread : readCursor args.after = .ok [(A.id, tokA)] := by
    rw [hafter]
    exact readCursor_b64_marshal [(A.id, tokA)] (by simp) (by simp)
      (by
        intro p hp
        simp only [List.mem_singleton] at hp
        subst hp
        exact ⟨hA1, hA2⟩)
      (by
        intro p hp
        simp only [List.mem_singleton] at hp
        subst hp
        exact hval)
  have hlA : lookupPair [(A.id, tokA)] A.id = some tokA := by simp [lookupPair]
  have hlB : lookupPair [(A.id, tokA)] B.id = none := by simp [lookupPair, hAB]
  have hcA2 : client (refOpts r args A.id (lookupPair [(A.id, tokA)] A.id)) = .ok w := by
    rw [hlA]; exact hcA
  rw [References_trace client r args [(A.id, tokA)] hread, hup]
  rw [referencesLoop_trace_cons client r args [(A.id, tokA)] [] [] A [B] w hcA2]
  rw [referencesLoop_trace_last client r args [(A.id, tokA)]]
  rw [hlA, hlB]

theorem C1_requery_witness :
    (References
        (fun o => if o.uploadID = 1 then Except.ok (([11] : List Nat), ([] : List Nat))
          else Except.ok ([21], []) :
          RefQueryOpts → Except Nat (List Nat × List Nat))
        ⟨1, [], [], [⟨1⟩, ⟨2⟩]⟩
        ⟨0, 0, none,
          some (b64encode (marshalCursors [(1, [116, 111, 107, 65])]))⟩).1 =
      [refOpts ⟨1, [], [], [⟨1⟩, ⟨2⟩]⟩
          ⟨0, 0, none, some (b64encode (marshalCursors [(1, [116, 111, 107, 65])]))⟩
          1 (some [116, 111, 107, 65]),
        refOpts ⟨1, [], [], [⟨1⟩, ⟨2⟩]⟩
          ⟨0, 0, none, some (b64encode (marshalCursors [(1, [116, 111, 107, 65])]))⟩
          2 none] :=
  C1_requery _ ⟨1, [], [], [⟨1⟩, ⟨2⟩]⟩ _ ⟨1⟩ ⟨2⟩ [116, 111, 107, 65] ([11], [])
    rfl (by decide) (by decide) (by decide) (by decide) (by decide) rfl rfl

/-- Claim C5: for Definitions, References and Hover alike, a backend error
on any queried upload (every earlier upload having answered — with empty
hover text in Hover's case) makes the whole operation return that error and
no result: locations already collected are discarded. -/
theorem C5_fail_fast {α μ ρ ε : Type}
    (clientD : QueryOpts → Except ε (List α × μ)) (r1 : lsifQueryResolver)
    (a1 : LSIFQueryPositionArgs) (pre1 post1 : List LSIFUpload) (u1 : LSIFUpload) (e1 : ε)
    (h11 : r1.uploads = pre1 ++ u1 :: post1)
    (h12 : ∀ v ∈ pre1, ∃ w, clientD (defOpts r1 a1 v.id) = .ok w)
    (h13 : clientD (defOpts r1 a1 u1.id) = .error e1)
    (clientR : RefQueryOpts → Except ε (List α × List Nat)) (r2 : lsifQueryResolver)
    (a2 : LSIFPagedQueryPositionArgs) (m2 : List (Int × List Nat))
    (pre2 post2 : List LSIFUpload) (u2 : LSIFUpload) (e2 : ε)
    (h21 : readCursor a2.after = .ok m2)
    (h22 : r2.uploads = pre2 ++ u2 :: post2)
    (h23 : ∀ v ∈ pre2, ∃ w, clientR (refOpts r2 a2 v.id (lookupPair m2 v.id)) = .ok w)
    (h24 : clientR (refOpts r2 a2 u2.id (lookupPair m2 u2.id)) = .error e2)
    (clientH : QueryOpts → Except ε (List Nat × ρ)) (r3 : lsifQueryResolver)
    (a3 : LSIFQueryPositionArgs) (pre3 post3 : List LSIFUpload) (u3 : LSIFUpload) (e3 : ε)
    (h31 : r3.uploads = pre3 ++ u3 :: post3)
    (h32 : ∀ v ∈ pre3, ∃ rng, clientH (defOpts r3 a3 v.id) = .ok ([], rng))
    (h33 : clientH (defOpts r3 a3 u3.id) = .error e3) :
    (Definitions clientD r1 a1).2 = .error e1 ∧
    (References clientR r2 a2).2 = .error (.backend e2) ∧
    (Hover clientH r3 a3).2 = .error e3 := by
  refine ⟨?_, ?_, ?_⟩
  · have hl := definitionsLoop_error clientD r1 a1 u1 e1 h13 pre1 post1 [] h12
    simp only [Definitions, h11]
    rcases hres : definitionsLoop clientD r1 a1 [] (pre1 ++ u1 :: post1) with ⟨tr, res⟩
    rw [hres] at hl
    dsimp only at hl
    subst hl
    rfl
  · have hl := referencesLoop_error clientR r2 a2 m2 u2 e2 h24 pre2 post2 [] [] h23
    simp only [References, h21, h22]
    rcases hres : referencesLoop clientR r2 a2 m2 [] [] (pre2 ++ u2 :: post2) with ⟨tr, res⟩
    rw [hres] at hl
    dsimp only at hl
    subst hl
    rfl
  · have hl := hoverLoop_error clientH r3 a3 u3 e3 h33 pre3 post3 h32
    simp only [Hover, h31]
    rcases hres : hoverLoop clientH r3 a3 (pre3 ++ u3 :: post3) with ⟨tr, res⟩
    rw [hres] at hl
    dsimp only at hl
    subst hl
    rfl

theorem C5_fail_fast_witness :
    (Definitions
        (fun o => if o.uploadID = 1 then Except.ok ([10], 0) else Except.error 7 :
          QueryOpts → Except Nat (List Nat × Nat))
        ⟨1, [], [], [⟨1⟩, ⟨2⟩]⟩ ⟨0, 0⟩).2 = .error 7 ∧
    (References
        (fun o => if o.uploadID = 1 then Except.ok ([10], []) else Except.error 7 :
          RefQueryOpts → Except Nat (List Nat × List Nat))
        ⟨1, [], [], [⟨1⟩, ⟨2⟩]⟩ ⟨0, 0, none, none⟩).2 = .error (.backend 7) ∧
    (Hover
        (fun o => if o.uploadID = 1 then Except.ok ([], 0) else Except.error 7 :
          QueryOpts → Except Nat (List Nat × Nat))
        ⟨1, [], [], [⟨1⟩, ⟨2⟩]⟩ ⟨0, 0⟩).2 = .error 7 :=
  C5_fail_fast
    (fun o => if o.uploadID = 1 then Except.ok ([10], 0) else Except.error 7)
    ⟨1, [], [], [⟨1⟩, ⟨2⟩]⟩ ⟨0, 0⟩ [⟨1⟩] [] ⟨2⟩ 7 rfl
    (by
      intro v hv
      simp only [List.mem_singleton] at hv
      subst hv
      exact ⟨([10], 0), rfl⟩)
    rfl
    (fun o => if o.uploadID = 1 then Except.ok ([10], []) else Except.error 7)
    ⟨1, [], [], [⟨1⟩, ⟨2⟩]⟩ ⟨0, 0, none, none⟩ [] [⟨1⟩] [] ⟨2⟩ 7 rfl rfl
    (by
      intro v hv
      simp only [List.mem_singleton] at hv
      subst hv
      exact ⟨([10], []), rfl⟩)
    rfl
    (fun o => if o.uploadID = 1 then Except.ok ([], 0) else Except.error 7)
    ⟨1, [], [], [⟨1⟩, ⟨2⟩]⟩ ⟨0, 0⟩ [⟨1⟩] [] ⟨2⟩ 7 rfl
    (by
      intro v hv
      simp only [List.mem_singleton] at hv
      subst hv
      exact ⟨0, rfl⟩)
    rfl

/-- Claim C6: on every successful References page, the outgoing cursor map
contains exactly those uploads whose backend call on this page returned a
nonempty next-page token, and the encoded end cursor is the empty string
iff that map is empty — it is never empty for a nonempty map. -/
theorem C6_outgoing_cursor {α ε : Type}
    (client : RefQueryOpts → Except ε (List α × List Nat))
    (r : lsifQueryResolver) (args : LSIFPagedQueryPositionArgs)
    (m : List (Int × List Nat)) (f : Int → List α × List Nat)
    (hm : readCursor args.after = .ok m)
    (hnd : (r.uploads.map LSIFUpload.id).Nodup)
    (hc : ∀ u ∈ r.uploads, client (refOpts r args u.id (lookupPair m u.id)) = .ok (f u.id)) :
    ∃ endCursor,
      makeCursor (r.uploads.filterMap (fun u =>
        if (f u.id).2 = [] then none else some (u.id, (f u.id).2))) = .ok endCursor ∧
      (References client r args).2 =
        .ok ⟨(r.uploads.map (fun u => (f u.id).1)).flatten, endCursor⟩ ∧
      (endCursor = [] ↔ r.uploads.filterMap (fun u =>
        if (f u.id).2 = [] then none else some (u.id, (f u.id).2)) = []) := by
  refine ⟨if r.uploads.filterMap (fun u =>
      if (f u.id).2 = [] then none else some (u.id, (f u.id).2)) = [] then []
    else b64encode (marshalCursors (r.uploads.filterMap (fun u =>
      if (f u.id).2 = [] then none else some (u.id, (f u.id).2)))),
    makeCursor_eq _, ?_, ?_⟩
  · rw [References_ok client r args m f hm hnd hc]
  · by_cases h : r.uploads.filterMap (fun u =>
        if (f u.id).2 = [] then none else some (u.id, (f u.id).2)) = []
    · simp [h]
    · rw [if_neg h]
      constructor
      · intro hnil
        exact absurd hnil (b64encode_ne_nil _ (by rw [marshalCursors]; simp))
      · intro hx
        exact absurd hx h

theorem C6_outgoing_cursor_witness :
    ∃ endCursor,
      makeCursor ([⟨1⟩, ⟨2⟩].filterMap (fun u : LSIFUpload =>
        if ((fun i => if i = 1 then (([10] : List Nat), ([116] : List Nat))
          else ([20], [])) u.id).2 = [] then none
        else some (u.id, ((fun i => if i = 1 then (([10] : List Nat), ([116] : List Nat))
          else ([20], [])) u.id).2))) = .ok endCursor ∧
      (References
          (fun o => if o.uploadID = 1 then Except.ok ([10], [116])
            else Except.ok (([20] : List Nat), ([] : List Nat)) :
            RefQueryOpts → Except Nat (List Nat × List Nat))
          ⟨1, [], [], [⟨1⟩, ⟨2⟩]⟩ ⟨0, 0, none, none⟩).2 =
        .ok ⟨([⟨1⟩, ⟨2⟩].map (fun u : LSIFUpload =>
          ((fun i => if i = 1 then (([10] : List Nat), ([116] : List Nat))
            else ([20], [])) u.id).1)).flatten, endCursor⟩ ∧
      (endCursor = [] ↔ [⟨1⟩, ⟨2⟩].filterMap (fun u : LSIFUpload =>
        if ((fun i => if i = 1 then (([10] : List Nat), ([116] : List Nat))
          else ([20], [])) u.id).2 = [] then none
        else some (u.id, ((fun i => if i = 1 then (([10] : List Nat), ([116] : List Nat))
          else ([20], [])) u.id).2)) = []) :=
  C6_outgoing_cursor
    (fun o => if o.uploadID = 1 then Except.ok ([10], [116])
      else Except.ok (([20] : List Nat), ([] : List Nat)))
    ⟨1, [], [], [⟨1⟩, ⟨2⟩]⟩ ⟨0, 0, none, none⟩ []
    (fun i => if i = 1 then ([10], [116]) else ([20], []))
    rfl (by decide) (by decide)

/-- Claim C7: Hover queries uploads in candidate order and returns the
hover data of the first upload whose backend reports nonempty text, without
querying any later upload (the issued calls are exactly the leading
empty-text uploads plus that first nonempty one); if every upload reports
empty text the result is `none` with no error. -/
theorem C7_hover_short_circuit {ρ ε : Type} (client : QueryOpts → Except ε (List Nat × ρ))
    (r : lsifQueryResolver) (args : LSIFQueryPositionArgs) (f : Int → List Nat × ρ)
    (hc : ∀ u ∈ r.uploads, client (defOpts r args u.id) = .ok (f u.id)) :
    Hover client r args =
      ((hoverSpecQueried f r.uploads).map (fun u => defOpts r args u.id),
        .ok (hoverSpecResult f r.uploads)) := by
  rw [Hover]
  exact hoverLoop_char client r args f r.uploads hc

theorem C7_hover_short_circuit_witness :
    Hover
        (fun o => if o.uploadID = 1 then Except.ok ([], 0)
          else Except.ok ([100, 111, 99], 7) :
          QueryOpts → Except Nat (List Nat × Nat))
        ⟨1, [], [], [⟨1⟩, ⟨2⟩]⟩ ⟨0, 0⟩ =
      ((hoverSpecQueried
          (fun i => if i = 1 then (([] : List Nat), (0 : Nat)) else ([100, 111, 99], 7))
          [⟨1⟩, ⟨2⟩]).map (fun u => defOpts ⟨1, [], [], [⟨1⟩, ⟨2⟩]⟩ ⟨0, 0⟩ u.id),
        .ok (hoverSpecResult
          (fun i => if i = 1 then (([] : List Nat), (0 : Nat)) else ([100, 111, 99], 7))
          [⟨1⟩, ⟨2⟩])) :=
  C7_hover_short_circuit
    (fun o => if o.uploadID = 1 then Except.ok ([], 0) else Except.ok ([100, 111, 99], 7))
    ⟨1, [], [], [⟨1⟩, ⟨2⟩]⟩ ⟨0, 0⟩
    (fun i => if i = 1 then ([], 0) else ([100, 111, 99], 7)) (by decide)

/-- Claim C8: when every backend call answers, the Definitions result is
the concatenation of the per-upload location lists in candidate-list order,
each backend's own order preserved, with no deduplication. -/
theorem C8_definitions_order {α μ ε : Type} (client : QueryOpts → Except ε (List α × μ))
    (r : lsifQueryResolver) (args : LSIFQueryPositionArgs) (f : Int → List α × μ)
    (hc : ∀ u ∈ r.uploads, client (defOpts r args u.id) = .ok (f u.id)) :
    (Definitions client r args).2 =
      .ok ⟨(r.uploads.map (fun u => (f u.id).1)).flatten, []⟩ := by
  simp only [Definitions]
  rw [definitionsLoop_ok client r args f r.uploads [] hc]
  simp

theorem C8_definitions_order_witness :
    (Definitions
        (fun o => Except.ok ((if o.uploadID = 1 then [1, 2] else [3] : List Nat), (0 : Nat)) :
          QueryOpts → Except Nat (List Nat × Nat))
        ⟨1, [], [], [⟨1⟩, ⟨2⟩]⟩ ⟨0, 0⟩).2 = .ok ⟨[1, 2, 3], []⟩ :=
  C8_definitions_order
    (fun o => Except.ok ((if o.uploadID = 1 then [1, 2] else [3]), 0))
    ⟨1, [], [], [⟨1⟩, ⟨2⟩]⟩ ⟨0, 0⟩
    (fun i => ((if i = 1 then [1, 2] else [3]), 0)) (by decide)

/-- Claim C9: whatever limit argument the request carries (present or
absent) is forwarded unchanged as the `Limit` of every issued backend
References call. -/
theorem C9_limit_passthrough {α ε : Type}
    (client : RefQueryOpts → Except ε (List α × List Nat))
    (r : lsifQueryResolver) (args : LSIFPagedQueryPositionArgs) (o : RefQueryOpts)
    (ho : o ∈ (References client r args).1) :
    o.limit = args.first := by
  rcases hread : readCursor args.after with e | m
  · simp only [References, hread] at ho
    simp at ho
  · obtain ⟨u, _, ho2⟩ := References_calls client r args m hread o ho
    rw [ho2]
    rfl

theorem C9_limit_passthrough_witness :
    (refOpts ⟨1, [], [], [⟨1⟩]⟩ ⟨0, 0, some 5, none⟩ 1 none).limit =
      (⟨0, 0, some 5, none⟩ : LSIFPagedQueryPositionArgs).first :=
  C9_limit_passthrough
    (fun _ => Except.ok (([] : List Nat), ([] : List Nat)) :
      RefQueryOpts → Except Nat (List Nat × List Nat))
    ⟨1, [], [], [⟨1⟩]⟩ ⟨0, 0, some 5, none⟩ _ (by decide)

/-- Claim C10: an entry of a successfully decoded incoming cursor map whose
key is not a candidate upload's ID is silently dropped: References still
succeeds (the backend answering every call), no backend call is issued for
that key, and the outgoing cursor map's keys are a subset of the candidate
IDs, so the entry never reappears. -/
theorem C10_unknown_cursor_entries {α ε : Type}
    (client : RefQueryOpts → Except ε (List α × List Nat))
    (r : lsifQueryResolver) (args : LSIFPagedQueryPositionArgs)
    (m : List (Int × List Nat)) (k : Int) (v : List Nat)
    (hm : readCursor args.after = .ok m)
    (_hkv : (k, v) ∈ m)
    (hk : k ∉ r.uploads.map LSIFUpload.id)
    (hc : ∀ u ∈ r.uploads, ∃ w, client (refOpts r args u.id (lookupPair m u.id)) = .ok w) :
    (∀ o ∈ (References client r args).1,
        o.uploadID ∈ r.uploads.map LSIFUpload.id ∧ o.uploadID ≠ k) ∧
    (∃ page, (References client r args).2 = .ok page) ∧
    (∀ locs nc2, (referencesLoop client r args m [] [] r.uploads).2 = .ok (locs, nc2) →
        ∀ p ∈ nc2, p.1 ∈ r.uploads.map LSIFUpload.id ∧ p.1 ≠ k) := by
  refine ⟨?_, ?_, ?_⟩
  · intro o ho
    obtain ⟨u, hu, ho2⟩ := References_calls client r args m hm o ho
    subst ho2
    have hmem : (refOpts r args u.id (lookupPair m u.id)).uploadID ∈
        r.uploads.map LSIFUpload.id := List.mem_map.mpr ⟨u, hu, rfl⟩
    exact ⟨hmem, fun heq => hk (heq ▸ hmem)⟩
  · obtain ⟨locs, nc2, hok⟩ := referencesLoop_success client r args m r.uploads [] [] hc
    refine ⟨⟨locs, if nc2 = [] then [] else b64encode (marshalCursors nc2)⟩, ?_⟩
    simp only [References, hm]
    rcases hres : referencesLoop client r args m [] [] r.uploads with ⟨tr, res⟩
    rw [hres] at hok
    dsimp only at hok
    subst hok
    dsimp only
    rw [makeCursor_eq]
  · intro locs nc2 hok p hp
    have hkey := referencesLoop_newCursors_keys client r args m r.uploads [] [] locs nc2
      hok p hp
    rcases hkey with h | h
    · simp at h
    · exact ⟨h, fun heq => hk (heq ▸ h)⟩

theorem C10_unknown_cursor_entries_witness :
    (∀ o ∈ (References
        (fun _ => Except.ok (([] : List Nat), ([] : List Nat)) :
          RefQueryOpts → Except Nat (List Nat × List Nat))
        ⟨1, [], [], [⟨1⟩]⟩
        ⟨0, 0, none, some (b64encode (marshalCursors [(99, [97])]))⟩).1,
      o.uploadID ∈ [(⟨1⟩ : LSIFUpload)].map LSIFUpload.id ∧ o.uploadID ≠ 99) ∧
    (∃ page, (References
        (fun _ => Except.ok (([] : List Nat), ([] : List Nat)) :
          RefQueryOpts → Except Nat (List Nat × List Nat))
        ⟨1, [], [], [⟨1⟩]⟩
        ⟨0, 0, none, some (b64encode (marshalCursors [(99, [97])]))⟩).2 = .ok page) ∧
    (∀ locs nc2, (referencesLoop
        (fun _ => Except.ok (([] : List Nat), ([] : List Nat)) :
          RefQueryOpts → Except Nat (List Nat × List Nat))
        ⟨1, [], [], [⟨1⟩]⟩
        ⟨0, 0, none, some (b64encode (marshalCursors [(99, [97])]))⟩
        [(99, [97])] [] [] [⟨1⟩]).2 = .ok (locs, nc2) →
      ∀ p ∈ nc2, p.1 ∈ [(⟨1⟩ : LSIFUpload)].map LSIFUpload.id ∧ p.1 ≠ 99) :=
  C10_unknown_cursor_entries
    (fun _ => Except.ok (([] : List Nat), ([] : List Nat)))
    ⟨1, [], [], [⟨1⟩]⟩
    ⟨0, 0, none, some (b64encode (marshalCursors [(99, [97])]))⟩
    [(99, [97])] 99 [97]
    (readCursor_b64_marshal [(99, [97])] (by decide) (by decide) (by decide) (by decide))
    (by decide) (by decide)
    (by
      intro u hu
      simp only [List.mem_singleton] at hu
      subst hu
      exact ⟨([], []), rfl⟩)

end SgLsif
